import Mathlib

/-
Formal model of fstyle.js (James Diacono).

The repository is a sequence of evolutionary snapshots of one small CSS
library.  The claims under test cite src/fstyle.js, which concatenates two
snapshots: the 2021-12-18 snapshot (its `context`/`require_fragment` with the
"Bad class." and "Rules must not change." checks, cited around lines 192-220)
and the 2023-10-25 snapshot (cited around lines 258-553: `encode`, `spoof`,
`classify`, `fragify`, `require_fragment`, `require`, `dispose`).  Both are
embedded below; the 2023-10-25 snapshot is the primary subject.

Modelling conventions:
* JS objects used as string-keyed dictionaries (`requisitions`, `interned`),
  the `WeakMap` `ids`, and the heap of requisition objects are modelled as
  association lists with insertion-order append, looked up by first match.
* Object identity is modelled with numeric ids: template functions carry a
  `tid`, requisition objects live in an `objects` heap addressed by an id
  (the release closures capture the requisition *object*, not its class, so
  the heap outlives `delete requisitions[class]`, exactly as JS closures keep
  the object alive).
* The external inserter (`spec.insert`) is modelled by instrumentation: each
  call appends the fragment's class to `insertLog` and yields a removal
  callback identified by the fresh object id; invoking a removal callback
  appends that id to `removeLog`.  `insert = undefined` after `dispose()` is
  the flag `active = false`; calling the undefined `insert` is the error
  `JsErr.typeError`.
* Reference tokens (the fresh `{}` objects pushed into
  `requisition.references`) are fresh numbers drawn from `nextRef`.
* JS strings are Lean `String`s; `String(value)` of a primitive parameter
  value is modelled as the `String` carried in the parameter record, with
  `undefined` as `none`.  `Object.keys(...).sort()` (comparison on UTF-16
  code units) is modelled by an insertion sort of the key/value pairs by key
  (JS records have no duplicate keys, so sorting pairs by key agrees with
  sorting the keys and indexing).
* `"f" + counter` (JS number-to-string of a nonnegative integer) is modelled
  by `natStr`, plain decimal digits.
-/

namespace Fstyle

/-! ### Association lists (JS dictionaries / maps, insertion ordered) -/

def alookup {α β : Type} [DecidableEq α] : List (α × β) → α → Option β
  | [], _ => none
  | p :: ps, a => if p.1 = a then some p.2 else alookup ps a

def aupdate {α β : Type} [DecidableEq α] : List (α × β) → α → β → List (α × β)
  | [], _, _ => []
  | p :: ps, a, b => if p.1 = a then (a, b) :: ps else p :: aupdate ps a b

def aerase {α β : Type} [DecidableEq α] : List (α × β) → α → List (α × β)
  | [], _ => []
  | p :: ps, a => if p.1 = a then ps else p :: aerase ps a

theorem alookup_append_left {α β : Type} [DecidableEq α] {l m : List (α × β)} {a : α} {b : β}
    (h : alookup l a = some b) : alookup (l ++ m) a = some b := by
  induction l with
  | nil => simp [alookup] at h
  | cons p ps ih =>
      simp only [alookup, List.cons_append] at h ⊢
      split at h
      · rw [if_pos (by assumption)]
        exact h
      · simp only [*, if_false]
        exact ih h

theorem alookup_append_right {α β : Type} [DecidableEq α] {l : List (α × β)} {a : α}
    (m : List (α × β)) (h : alookup l a = none) : alookup (l ++ m) a = alookup m a := by
  induction l with
  | nil => simp
  | cons p ps ih =>
      simp only [alookup, List.cons_append] at h ⊢
      split at h
      · exact absurd h (by simp)
      · simp only [*, if_false]
        exact ih h

theorem alookup_mem {α β : Type} [DecidableEq α] {l : List (α × β)} {a : α} {b : β}
    (h : alookup l a = some b) : (a, b) ∈ l := by
  induction l with
  | nil => simp [alookup] at h
  | cons p ps ih =>
      obtain ⟨k, v⟩ := p
      simp only [alookup] at h
      by_cases hk : k = a
      · rw [if_pos hk] at h
        obtain rfl := Option.some.inj h
        subst hk
        exact List.mem_cons_self _ _
      · rw [if_neg hk] at h
        exact List.mem_cons_of_mem _ (ih h)

theorem alookup_eq_none_of_forall {α β : Type} [DecidableEq α] {l : List (α × β)} {a : α}
    (h : ∀ p ∈ l, p.1 ≠ a) : alookup l a = none := by
  induction l with
  | nil => rfl
  | cons p ps ih =>
      simp only [alookup]
      rw [if_neg (h p (by simp))]
      exact ih (fun q hq => h q (by simp [hq]))

theorem alookup_aupdate_self {α β : Type} [DecidableEq α] {l : List (α × β)} {a : α} {b : β}
    (h : (alookup l a).isSome) : alookup (aupdate l a b) a = some b := by
  induction l with
  | nil => simp [alookup] at h
  | cons p ps ih =>
      obtain ⟨k, v⟩ := p
      simp only [alookup] at h
      simp only [aupdate]
      by_cases hk : k = a
      · rw [if_pos hk]
        simp [alookup]
      · rw [if_neg hk] at h
        rw [if_neg hk]
        simp only [alookup]
        rw [if_neg hk]
        exact ih h

theorem alookup_aupdate_ne {α β : Type} [DecidableEq α] {l : List (α × β)} {a x : α} {b : β}
    (h : x ≠ a) : alookup (aupdate l a b) x = alookup l x := by
  induction l with
  | nil => rfl
  | cons p ps ih =>
      obtain ⟨k, v⟩ := p
      simp only [aupdate]
      by_cases hk : k = a
      · rw [if_pos hk]
        show (if a = x then some b else alookup ps x) = if k = x then some v else alookup ps x
        rw [if_neg (fun hc => h hc.symm), if_neg (by rw [hk]; exact fun hc => h hc.symm)]
      · rw [if_neg hk]
        show (if k = x then some v else alookup (aupdate ps a b) x)
          = if k = x then some v else alookup ps x
        by_cases hx : k = x
        · rw [if_pos hx, if_pos hx]
        · rw [if_neg hx, if_neg hx]
          exact ih

theorem aupdate_aupdate {α β : Type} [DecidableEq α] (l : List (α × β)) (a : α) (b b' : β) :
    aupdate (aupdate l a b) a b' = aupdate l a b' := by
  induction l with
  | nil => rfl
  | cons p ps ih =>
      obtain ⟨k, v⟩ := p
      by_cases hk : k = a
      · subst hk
        simp [aupdate]
      · simp only [aupdate, if_neg hk]
        rw [ih]

theorem aupdate_self {α β : Type} [DecidableEq α] {l : List (α × β)} {a : α} {b : β}
    (h : alookup l a = some b) : aupdate l a b = l := by
  induction l with
  | nil => rfl
  | cons p ps ih =>
      obtain ⟨k, v⟩ := p
      simp only [alookup] at h
      simp only [aupdate]
      by_cases hk : k = a
      · rw [if_pos hk]
        rw [if_pos hk] at h
        obtain rfl := Option.some.inj h
        subst hk
        rfl
      · rw [if_neg hk]
        rw [if_neg hk] at h
        rw [ih h]

theorem aupdate_keeps_rest {α β : Type} [DecidableEq α] {l : List (α × β)} {a x : α} {b : β} :
    alookup l x = none → alookup (aupdate l a b) x = none := by
  intro h
  induction l with
  | nil => exact h
  | cons p ps ih =>
      obtain ⟨k, v⟩ := p
      simp only [alookup] at h
      by_cases hx : k = x
      · rw [if_pos hx] at h
        exact absurd h (by simp)
      · rw [if_neg hx] at h
        simp only [aupdate]
        by_cases hk : k = a
        · rw [if_pos hk]
          simp only [alookup]
          rw [if_neg (by rw [← hk]; exact hx)]
          exact h
        · rw [if_neg hk]
          simp only [alookup]
          rw [if_neg hx]
          exact ih h

theorem aerase_append_absent {α β : Type} [DecidableEq α] {l : List (α × β)} {a : α} {b : β}
    (h : alookup l a = none) : aerase (l ++ [(a, b)]) a = l := by
  induction l with
  | nil => simp [aerase]
  | cons p ps ih =>
      obtain ⟨k, v⟩ := p
      simp only [alookup] at h
      by_cases hk : k = a
      · rw [if_pos hk] at h
        exact absurd h (by simp)
      · rw [if_neg hk] at h
        simp only [List.cons_append, aerase, List.append_eq]
        rw [if_neg hk, ih h]

/-! ### Decimal rendering of JS numbers (`"f" + counter`) -/

def natDigits (n : Nat) : List Char :=
  if h : n < 10 then [Char.ofNat (48 + n)]
  else natDigits (n / 10) ++ [Char.ofNat (48 + n % 10)]
termination_by n
decreasing_by exact Nat.div_lt_self (by omega) (by omega)

def natStr (n : Nat) : String := ⟨natDigits n⟩

def digitsVal : List Char → Nat
  | [] => 0
  | c :: cs => (c.toNat - 48) * 10 ^ cs.length + digitsVal cs

theorem digitsVal_append_singleton (l : List Char) (c : Char) :
    digitsVal (l ++ [c]) = 10 * digitsVal l + (c.toNat - 48) := by
  induction l with
  | nil => simp [digitsVal]
  | cons d ds ih =>
      simp only [List.cons_append, digitsVal, ih, List.append_eq, List.length_append,
        List.length_cons, List.length_nil]
      ring

theorem toNat_digitChar {d : Nat} (h : d < 10) : (Char.ofNat (48 + d)).toNat = 48 + d := by
  interval_cases d <;> decide

theorem digitsVal_natDigits (n : Nat) : digitsVal (natDigits n) = n := by
  induction n using Nat.strong_induction_on with
  | _ n ih =>
      rw [natDigits]
      split
      · simp [digitsVal, toNat_digitChar (by assumption)]
      · rw [digitsVal_append_singleton, ih (n / 10) (Nat.div_lt_self (by omega) (by omega)),
          toNat_digitChar (by omega)]
        omega

theorem natDigits_inj {m n : Nat} (h : natDigits m = natDigits n) : m = n := by
  have := digitsVal_natDigits m
  rw [h, digitsVal_natDigits] at this
  exact this.symm

theorem natDigits_ascii {n : Nat} {c : Char} (h : c ∈ natDigits n) : c.toNat < 128 := by
  induction n using Nat.strong_induction_on with
  | _ n ih =>
      rw [natDigits] at h
      split at h
      · simp only [List.mem_singleton] at h
        subst h
        rw [toNat_digitChar (by assumption)]
        omega
      · rcases List.mem_append.1 h with h1 | h1
        · exact ih (n / 10) (Nat.div_lt_self (by omega) (by omega)) h1
        · simp only [List.mem_singleton] at h1
          subst h1
          rw [toNat_digitChar (by omega)]
          omega

/-! ### `encode` (2023-10-25 snapshot, src/fstyle.js lines 296-321)

`Array.from(String(value))` splits a JS string into glyphs (code points);
a Lean `String` is already a list of code points (`Char`), so `encode` maps
over `s.data`.  A glyph above U+FFFF occupies two UTF-16 code units and
therefore fails the one-character regex `rx_class_character`, which is why
the legality test below caps at 0xFFFF. -/

def rx_class_character (c : Char) : Bool :=
  decide ((0x61 ≤ c.toNat ∧ c.toNat ≤ 0x7A) ∨ (0x41 ≤ c.toNat ∧ c.toNat ≤ 0x5A) ∨
    (0x30 ≤ c.toNat ∧ c.toNat ≤ 0x39) ∨ (0xA0 ≤ c.toNat ∧ c.toNat ≤ 0xFFFF) ∨
    c.toNat = 0x5F ∨ c.toNat = 0x2D)

/-- A hexadecimal digit character, uppercase (`toString(16).toUpperCase()`). -/
def hexChar (d : Nat) : Char := Char.ofNat (if d < 10 then 48 + d else 55 + d)

/-- The last `k` hexadecimal digits of `n`, zero padded (`padStart(6, "0")`). -/
def hexChars : Nat → Nat → List Char
  | 0, _ => []
  | k + 1, n => hexChars k (n / 16) ++ [hexChar (n % 16)]

def encodeGlyph (c : Char) : List Char :=
  if rx_class_character c then [c] else '\\' :: hexChars 6 c.toNat

def encode (s : String) : String := ⟨(s.data.map encodeGlyph).flatten⟩

theorem length_hexChars (k n : Nat) : (hexChars k n).length = k := by
  induction k generalizing n with
  | zero => rfl
  | succ k ih => simp [hexChars, ih]

def hexCharVal (c : Char) : Nat := if 65 ≤ c.toNat then c.toNat - 55 else c.toNat - 48

def hexVal : List Char → Nat
  | [] => 0
  | c :: cs => hexCharVal c * 16 ^ cs.length + hexVal cs

theorem hexVal_append_singleton (l : List Char) (c : Char) :
    hexVal (l ++ [c]) = 16 * hexVal l + hexCharVal c := by
  induction l with
  | nil => simp [hexVal]
  | cons d ds ih =>
      simp only [List.cons_append, hexVal, ih, List.append_eq, List.length_append,
        List.length_cons, List.length_nil]
      ring

theorem hexCharVal_hexChar {d : Nat} (h : d < 16) : hexCharVal (hexChar d) = d := by
  interval_cases d <;> decide

theorem hexVal_hexChars (k n : Nat) : hexVal (hexChars k n) = n % 16 ^ k := by
  induction k generalizing n with
  | zero =>
      simp only [hexChars, hexVal, pow_zero, Nat.mod_one]
  | succ k ih =>
      rw [hexChars, hexVal_append_singleton, ih, hexCharVal_hexChar (Nat.mod_lt _ (by omega))]
      rw [pow_succ, mul_comm (16 ^ k) 16, Nat.mod_mul]
      omega

theorem hexChars_inj {m n : Nat} (hm : m < 16 ^ 6) (hn : n < 16 ^ 6)
    (h : hexChars 6 m = hexChars 6 n) : m = n := by
  have := hexVal_hexChars 6 m
  rw [h, hexVal_hexChars] at this
  rw [Nat.mod_eq_of_lt hm, Nat.mod_eq_of_lt hn] at this
  exact this.symm

theorem char_toNat_lt (c : Char) : c.toNat < 0x110000 := by
  have h := c.valid
  rcases h with h | h
  · have : c.toNat < 0xD800 := h
    omega
  · have : c.toNat < 0x110000 := h.2
    exact this

theorem char_toNat_inj {c d : Char} (h : c.toNat = d.toNat) : c = d := by
  have hc := Char.ofNat_toNat c
  rw [h, Char.ofNat_toNat] at hc
  exact hc.symm

theorem backslash_not_class_character : rx_class_character '\\' = false := by decide

theorem encodeGlyph_ne_nil (c : Char) : encodeGlyph c ≠ [] := by
  unfold encodeGlyph
  split <;> simp

theorem encodeGlyph_append_inj {c d : Char} {r1 r2 : List Char}
    (h : encodeGlyph c ++ r1 = encodeGlyph d ++ r2) : c = d ∧ r1 = r2 := by
  unfold encodeGlyph at h
  by_cases hc : rx_class_character c <;> by_cases hd : rx_class_character d
  · rw [if_pos hc, if_pos hd] at h
    simp only [List.cons_append, List.nil_append, List.cons.injEq] at h
    exact ⟨h.1, h.2⟩
  · rw [if_pos hc, if_neg hd] at h
    simp only [List.cons_append, List.nil_append, List.cons.injEq] at h
    rw [h.1] at hc
    rw [backslash_not_class_character] at hc
    exact absurd hc (by simp)
  · rw [if_neg hc, if_pos hd] at h
    simp only [List.cons_append, List.nil_append, List.cons.injEq] at h
    rw [← h.1] at hd
    rw [backslash_not_class_character] at hd
    exact absurd hd (by simp)
  · rw [if_neg hc, if_neg hd] at h
    simp only [List.cons_append, List.cons.injEq] at h
    obtain ⟨hex_eq, rest_eq⟩ := List.append_inj h.2
      (by rw [length_hexChars, length_hexChars])
    refine ⟨?_, rest_eq⟩
    have hcb : c.toNat < 16 ^ 6 := lt_of_lt_of_le (char_toNat_lt c) (by norm_num)
    have hdb : d.toNat < 16 ^ 6 := lt_of_lt_of_le (char_toNat_lt d) (by norm_num)
    exact char_toNat_inj (hexChars_inj hcb hdb hex_eq)

theorem encodeGlyphs_inj : ∀ l1 l2 : List Char,
    (l1.map encodeGlyph).flatten = (l2.map encodeGlyph).flatten → l1 = l2 := by
  intro l1
  induction l1 with
  | nil =>
      intro l2 h
      cases l2 with
      | nil => rfl
      | cons d ds =>
          simp only [List.map_nil, List.flatten, List.map_cons, List.flatten_cons] at h
          exact absurd (List.append_eq_nil.mp h.symm).1 (encodeGlyph_ne_nil d)
  | cons c cs ih =>
      intro l2 h
      cases l2 with
      | nil =>
          simp only [List.map_nil, List.flatten, List.map_cons, List.flatten_cons] at h
          exact absurd (List.append_eq_nil.mp h).1 (encodeGlyph_ne_nil c)
      | cons d ds =>
          simp only [List.map_cons, List.flatten_cons] at h
          obtain ⟨rfl, h2⟩ := encodeGlyph_append_inj h
          rw [ih ds h2]

theorem encode_inj {s1 s2 : String} (h : encode s1 = encode s2) : s1 = s2 := by
  apply String.ext
  exact encodeGlyphs_inj _ _ (congrArg String.data h)

/-! ### `spoof` (2023-10-25 snapshot, lines 271-294)

`rx_character` (`/./g`) matches every character except line terminators;
characters without a lookalike, line terminators included, are kept, so
mapping every character through the lookalike table is equivalent. -/

def lookalike (c : Char) : Option Char :=
  if c = '.' then some (Char.ofNat 0x2024)
  else if c = '#' then some (Char.ofNat 0xFF03)
  else if c = '%' then some (Char.ofNat 0x2052)
  else if c = '(' then some (Char.ofNat 0x27EE)
  else if c = ')' then some (Char.ofNat 0x27EF)
  else if c = ',' then some (Char.ofNat 0x201A)
  else if c = ' ' then some (Char.ofNat 0x2423)
  else none

def spoof (s : String) : String := ⟨s.data.map (fun c => (lookalike c).getD c)⟩

/-! ### `classify` (2023-10-25 snapshot, lines 449-494)

A template function is identified by its object reference (`tid`, the
`WeakMap` key) and carries its `name`.  A parameter record is a list of
key/value pairs without duplicate keys; a value is `none` for `undefined`
and otherwise the string `String(value)` of the primitive value. -/

structure Template where
  tid : Nat
  name : String
deriving DecidableEq

abbrev Params := List (String × Option String)

def keyLE (a b : String × Option String) : Prop := a.1 ≤ b.1

instance : DecidableRel keyLE := fun a b => inferInstanceAs (Decidable (a.1 ≤ b.1))

instance : IsTotal (String × Option String) keyLE := ⟨fun a b => le_total a.1 b.1⟩

instance : IsTrans (String × Option String) keyLE := ⟨fun _ _ _ h1 h2 => le_trans h1 h2⟩

/-- `Object.keys(parameters).sort()` followed by indexing, modelled as sorting
the pairs by key. -/
def sortPairs (p : Params) : Params := List.insertionSort keyLE p

/-- One step of the `forEach` loop of `classify`: append
`"·" + key + "→" + spoof(String(value))` when the value is not `undefined`. -/
def pfStep : String → String × Option String → String
  | acc, (k, some v) => acc ++ "·" ++ k ++ "→" ++ spoof v
  | acc, (_, none) => acc

/-- The `forEach` loop of `classify` over the sorted keys. -/
def paramFold (p : Params) (the_class : String) : String :=
  (sortPairs p).foldl pfStep the_class

structure ClassifyState where
  intern : Bool
  ids : List (Nat × String)
  counter : Nat
  interned : List (String × String)
  internCounter : Nat
deriving DecidableEq

/-- The fresh class of a newly seen template: `"f" + counter + "⎧" + template.name + "⎭"`. -/
def mkBase (k : Nat) (nm : String) : String := "f" ++ natStr k ++ "⎧" ++ nm ++ "⎭"

/-- First half of `classify`: fetch or mint the id-based part of the class. -/
def classBase (s : ClassifyState) (t : Template) : String × ClassifyState :=
  match alookup s.ids t.tid with
  | some c => (c, s)
  | none =>
      let c := mkBase s.counter t.name
      (c, { s with ids := s.ids ++ [(t.tid, c)], counter := s.counter + 1 })

/-- Second half of `classify`: the `spec.intern === true` branch. -/
def internize (s : ClassifyState) (full : String) : String × ClassifyState :=
  if s.intern then
    match alookup s.interned full with
    | some short => (short, s)
    | none =>
        let short := "f" ++ natStr s.internCounter
        (short, { s with interned := s.interned ++ [(full, short)],
                         internCounter := s.internCounter + 1 })
  else (full, s)

def classify (s : ClassifyState) (t : Template) (p : Params) : String × ClassifyState :=
  let bs := classBase s t
  internize bs.2 (paramFold p bs.1)

def clsInit (intern : Bool) : ClassifyState := ⟨intern, [], 0, [], 0⟩

/-! ### The context (2023-10-25 snapshot, lines 449-551)

State of one `context(spec)` closure.  `active` is `insert !== undefined`;
`table` is `requisitions` (class to requisition-object id); `objects` is the
heap of requisition objects (kept alive by release closures even after
`delete requisitions[...]`); `insertLog`/`removeLog` instrument the external
inserter and the removal callbacks it returns (callback of object `o` is
identified by `o`, since `insert` is called exactly when object `o` is
created). -/

structure Fragment where
  cls : String
  statements : String
deriving DecidableEq

inductive JsErr where
  | typeError
deriving DecidableEq

structure Requisition where
  statements : String
  references : List Nat
  removeId : Nat
deriving DecidableEq

structure Releaser where
  obj : Nat
  ref : Nat
  cls : String
deriving DecidableEq

structure CtxState where
  active : Bool
  table : List (String × Nat)
  objects : List (Nat × Requisition)
  nextObj : Nat
  nextRef : Nat
  insertLog : List String
  removeLog : List Nat
deriving DecidableEq

def getObj (s : CtxState) (o : Nat) : Requisition :=
  (alookup s.objects o).getD ⟨"", [], 0⟩

/-- `require_fragment` (lines 496-514).  When no requisition exists for the
class, `insert(fragment)` is evaluated while building the object literal;
if `insert` is `undefined` (after `dispose`) that call raises a `TypeError`
before anything is registered.  When a requisition exists, a fresh reference
is pushed without consulting `insert` at all. -/
def requireFragment (f : Fragment) (s : CtxState) : Except JsErr (Releaser × CtxState) :=
  match alookup s.table f.cls with
  | some o =>
      let q := getObj s o
      .ok (⟨o, s.nextRef, f.cls⟩,
        { s with
            objects := aupdate s.objects o { q with references := q.references ++ [s.nextRef] },
            nextRef := s.nextRef + 1 })
  | none =>
      if s.active then
        .ok (⟨s.nextObj, s.nextRef, f.cls⟩,
          { s with
              table := s.table ++ [(f.cls, s.nextObj)],
              objects := s.objects ++ [(s.nextObj, ⟨f.statements, [s.nextRef], s.nextObj⟩)],
              nextObj := s.nextObj + 1,
              nextRef := s.nextRef + 1,
              insertLog := s.insertLog ++ [f.cls] })
      else .error .typeError

/-- `release_fragment` (lines 515-524).  The closure captured the requisition
object (`obj`), its own reference token (`ref`) and `fragment.class`. -/
def releaseFragment (r : Releaser) (s : CtxState) : CtxState :=
  let q := getObj s r.obj
  if r.ref ∈ q.references then
    let refs := q.references.erase r.ref
    if refs = [] then
      { s with
          objects := aupdate s.objects r.obj { q with references := refs },
          removeLog := s.removeLog ++ [q.removeId],
          table := aerase s.table r.cls }
    else
      { s with objects := aupdate s.objects r.obj { q with references := refs } }
  else s

/-- `fragments.map(require_fragment)`, run left to right; a thrown error
propagates but earlier registrations stay (the documented partial-failure
hazard), so the state is returned alongside the error. -/
def requireList : List Fragment → CtxState → Option JsErr × List Releaser × CtxState
  | [], s => (none, [], s)
  | f :: fs, s =>
      match requireFragment f s with
      | .error e => (some e, [], s)
      | .ok (r, s1) =>
          let out := requireList fs s1
          (out.1, r :: out.2.1, out.2.2)

/-- `dispose` (lines 542-549): invoke every live requisition's removal
callback (when `insert` is still defined), then clear `insert`.  The
requisition table and the reference lists are left untouched. -/
def dispose (s : CtxState) : CtxState :=
  if s.active then
    { s with
        removeLog := s.removeLog ++ s.table.map (fun p => (getObj s p.2).removeId),
        active := false }
  else s

/-- A requireable (2023-10-25): a function of `classify`, or an array of
requireables. -/
inductive Requireable where
  | leaf : (ClassifyState → List Fragment × ClassifyState) → Requireable
  | arr : List Requireable → Requireable

/-- `fragify` (lines 433-447): `requireable.map(...).flat()` for arrays,
`requireable(classify)` for functions, threading the context's classifier
state. -/
def fragify : Requireable → ClassifyState → List Fragment × ClassifyState
  | .leaf f, cs => f cs
  | .arr [], cs => ([], cs)
  | .arr (r :: rs), cs =>
      let a := fragify r cs
      let b := fragify (.arr rs) a.2
      (a.1 ++ b.1, b.2)

structure Handle where
  classes : List String
  releasers : List Releaser
deriving DecidableEq

structure FullState where
  ctx : CtxState
  cls : ClassifyState
deriving DecidableEq

/-- `require(requireable)` (lines 528-541). -/
def require (rq : Requireable) (s : FullState) : Except JsErr Handle × FullState :=
  let fr := fragify rq s.cls
  let out := requireList fr.1 s.ctx
  match out.1 with
  | some e => (.error e, ⟨out.2.2, fr.2⟩)
  | none => (.ok ⟨fr.1.map Fragment.cls, out.2.1⟩, ⟨out.2.2, fr.2⟩)

/-- `handle.release()` (lines 535-539): invoke every releaser in order. -/
def releaseHandle (h : Handle) (s : CtxState) : CtxState :=
  h.releasers.foldl (fun s r => releaseFragment r s) s

def initCtx : CtxState := ⟨true, [], [], 0, 0, [], []⟩

def initFull (intern : Bool) : FullState := ⟨initCtx, clsInit intern⟩

/-! ### The class-token grammar and the 2021-12-18 snapshot

`rx_class = /^[_a-zA-Z](?:[_a-zA-Z0-9\-]|\\[0-9A-F]{6})*$/`
(src/fstyle.js line 192), used by the 2021-12-18 `require_fragment`
(lines 195-220).  The 2021 snapshot names a fragment's CSS text `rules`
and the requisition table `requisites` (a requisite holds a use count,
not a reference list). -/

def isClassStart (c : Char) : Bool :=
  decide (c = '_' ∨ (0x41 ≤ c.toNat ∧ c.toNat ≤ 0x5A) ∨ (0x61 ≤ c.toNat ∧ c.toNat ≤ 0x7A))

def isClassBody (c : Char) : Bool :=
  isClassStart c || decide ((0x30 ≤ c.toNat ∧ c.toNat ≤ 0x39) ∨ c = '-')

def isHexUpper (c : Char) : Bool :=
  decide ((0x30 ≤ c.toNat ∧ c.toNat ≤ 0x39) ∨ (0x41 ≤ c.toNat ∧ c.toNat ≤ 0x46))

def classTail : List Char → Bool
  | [] => true
  | c :: cs =>
      if c = '\\' then
        match cs with
        | h1 :: h2 :: h3 :: h4 :: h5 :: h6 :: rest =>
            isHexUpper h1 && isHexUpper h2 && isHexUpper h3 && isHexUpper h4 &&
              isHexUpper h5 && isHexUpper h6 && classTail rest
        | _ => false
      else isClassBody c && classTail cs

def rx_class (s : String) : Bool :=
  match s.data with
  | [] => false
  | c :: cs => isClassStart c && classTail cs

structure Fragment21 where
  cls : String
  rules : String
deriving DecidableEq

structure Requisite21 where
  count : Nat
  rules : String
deriving DecidableEq

structure Ctx21 where
  requisites : List (String × Requisite21)
  insertLog : List String
deriving DecidableEq

/-- `require_fragment` of the 2021-12-18 snapshot (lines 195-220).  The
`typeof fragment.class !== "string"` and `typeof fragment.rules !== "string"`
halves of its checks are unrepresentable here because the embedding types
both fields as strings; the remaining checks are the `rx_class` grammar test
("Bad class.") and the canonical-rules comparison ("Rules must not change.").
The inserter is instrumented by `insertLog` as for the 2023 context. -/
def require_fragment21 (f : Fragment21) (s : Ctx21) : Except String Ctx21 :=
  if rx_class f.cls = false then .error "Bad class."
  else
    let requisite := (alookup s.requisites f.cls).getD ⟨0, f.rules⟩
    if f.rules ≠ requisite.rules then .error "Rules must not change."
    else
      let requisite1 : Requisite21 := ⟨requisite.count + 1, requisite.rules⟩
      if requisite1.count = 1 then
        .ok ⟨s.requisites ++ [(f.cls, requisite1)], s.insertLog ++ [f.cls]⟩
      else
        .ok ⟨aupdate s.requisites f.cls requisite1, s.insertLog⟩

def initCtx21 : Ctx21 := ⟨[], []⟩

/-! ### Sorting and folding lemmas for `classify` -/

def keyLT (a b : String × Option String) : Prop := a.1 < b.1

instance : IsAntisymm (String × Option String) keyLT :=
  ⟨fun _ _ h1 h2 => absurd h2 (lt_asymm h1)⟩

theorem sortPairs_perm (p : Params) : List.Perm (sortPairs p) p :=
  List.perm_insertionSort keyLE p

theorem sortPairs_sorted (p : Params) : (sortPairs p).Sorted keyLE :=
  List.sorted_insertionSort keyLE p

theorem sorted_keyLT {l : Params} (hs : l.Sorted keyLE) (hn : (l.map Prod.fst).Nodup) :
    l.Sorted keyLT := by
  have hp : l.Pairwise (fun a b => a.1 ≠ b.1) := List.pairwise_map.mp hn
  exact (List.Pairwise.and hs hp).imp (fun h => lt_of_le_of_ne h.1 h.2)

theorem sortPairs_nodup_keys {p : Params} (hn : (p.map Prod.fst).Nodup) :
    ((sortPairs p).map Prod.fst).Nodup :=
  (((sortPairs_perm p).map Prod.fst).symm).nodup hn

theorem sortPairs_eq_of_perm {p q : Params} (hperm : List.Perm p q)
    (hn : (p.map Prod.fst).Nodup) : sortPairs p = sortPairs q := by
  have hnq : (q.map Prod.fst).Nodup := (hperm.map Prod.fst).nodup hn
  have h1 : List.Perm (sortPairs p) (sortPairs q) :=
    (sortPairs_perm p).trans (hperm.trans (sortPairs_perm q).symm)
  exact List.eq_of_perm_of_sorted h1
    (sorted_keyLT (sortPairs_sorted p) (sortPairs_nodup_keys hn))
    (sorted_keyLT (sortPairs_sorted q) (sortPairs_nodup_keys hnq))

theorem foldl_pfStep_filter : ∀ (l : Params) (b : String),
    l.foldl pfStep b = (l.filter (fun kv => kv.2.isSome)).foldl pfStep b := by
  intro l
  induction l with
  | nil => intro b; rfl
  | cons kv l ih =>
      intro b
      obtain ⟨k, v⟩ := kv
      cases v with
      | none =>
          simp only [List.foldl_cons, List.filter_cons, Option.isSome_none, pfStep]
          exact ih b
      | some s =>
          simp only [List.foldl_cons, List.filter_cons, Option.isSome_some]
          exact ih (pfStep b (k, some s))

theorem map_fst_filter_nodup {p : Params} (P : String × Option String → Bool)
    (hn : (p.map Prod.fst).Nodup) : ((p.filter P).map Prod.fst).Nodup :=
  List.Nodup.sublist ((p.filter_sublist).map Prod.fst) hn

theorem filter_sortPairs (P : String × Option String → Bool) {p : Params}
    (hn : (p.map Prod.fst).Nodup) :
    (sortPairs p).filter P = sortPairs (p.filter P) := by
  have hperm : List.Perm ((sortPairs p).filter P) (sortPairs (p.filter P)) :=
    ((sortPairs_perm p).filter P).trans (sortPairs_perm (p.filter P)).symm
  have hs1 : ((sortPairs p).filter P).Sorted keyLT :=
    List.Pairwise.filter P (sorted_keyLT (sortPairs_sorted p) (sortPairs_nodup_keys hn))
  have hs2 : (sortPairs (p.filter P)).Sorted keyLT :=
    sorted_keyLT (sortPairs_sorted _) (sortPairs_nodup_keys (map_fst_filter_nodup P hn))
  exact List.eq_of_perm_of_sorted hperm hs1 hs2

/-- Two records that agree on their defined entries produce the same
appended parameter segments. -/
theorem paramFold_eq_of_defined_perm {p1 p2 : Params}
    (h : List.Perm (p1.filter (fun kv => kv.2.isSome)) (p2.filter (fun kv => kv.2.isSome)))
    (hn1 : (p1.map Prod.fst).Nodup) (hn2 : (p2.map Prod.fst).Nodup) (b : String) :
    paramFold p1 b = paramFold p2 b := by
  have e1 : paramFold p1 b
      = (sortPairs (p1.filter (fun kv => kv.2.isSome))).foldl pfStep b := by
    unfold paramFold
    rw [foldl_pfStep_filter, filter_sortPairs _ hn1]
  have e2 : paramFold p2 b
      = (sortPairs (p2.filter (fun kv => kv.2.isSome))).foldl pfStep b := by
    unfold paramFold
    rw [foldl_pfStep_filter, filter_sortPairs _ hn2]
  rw [e1, e2, sortPairs_eq_of_perm h (map_fst_filter_nodup _ hn1)]

theorem paramFold_eq_of_perm {p1 p2 : Params} (h : List.Perm p1 p2)
    (hn1 : (p1.map Prod.fst).Nodup) (b : String) : paramFold p1 b = paramFold p2 b := by
  unfold paramFold
  rw [sortPairs_eq_of_perm h hn1]

theorem foldl_pfStep_extend : ∀ (l : Params) (b : String),
    ∃ sfx, l.foldl pfStep b = b ++ sfx := by
  intro l
  induction l with
  | nil => exact fun b => ⟨"", (String.append_empty b).symm⟩
  | cons kv l ih =>
      intro b
      obtain ⟨k, v⟩ := kv
      cases v with
      | none =>
          obtain ⟨sfx, hs⟩ := ih b
          exact ⟨sfx, by simpa [pfStep] using hs⟩
      | some s =>
          obtain ⟨sfx, hs⟩ := ih (pfStep b (k, some s))
          refine ⟨"·" ++ k ++ "→" ++ spoof s ++ sfx, ?_⟩
          rw [List.foldl_cons, hs]
          simp only [pfStep, String.append_assoc]

theorem paramFold_extend (p : Params) (b : String) : ∃ sfx, paramFold p b = b ++ sfx :=
  foldl_pfStep_extend (sortPairs p) b

/-! ### The separator structure of generated classes -/

theorem marker_split {m : Char} : ∀ {l1 : List Char} {r1 l2 r2 : List Char},
    l1 ++ m :: r1 = l2 ++ m :: r2 → m ∉ l1 → m ∉ l2 → l1 = l2 ∧ r1 = r2 := by
  intro l1
  induction l1 with
  | nil =>
      intro r1 l2 r2 h h1 h2
      cases l2 with
      | nil =>
          simp only [List.nil_append, List.cons.injEq] at h
          exact ⟨rfl, h.2⟩
      | cons x xs =>
          simp only [List.nil_append, List.cons_append, List.cons.injEq] at h
          exact absurd (h.1 ▸ List.mem_cons_self x xs) h2
  | cons y ys ih =>
      intro r1 l2 r2 h h1 h2
      cases l2 with
      | nil =>
          simp only [List.nil_append, List.cons_append, List.cons.injEq] at h
          exact absurd (h.1 ▸ List.mem_cons_self y ys) h1
      | cons x xs =>
          simp only [List.cons_append, List.cons.injEq] at h
          obtain ⟨rfl, h2'⟩ := h
          have := ih h2' (fun hc => h1 (List.mem_cons_of_mem _ hc))
            (fun hc => h2 (List.mem_cons_of_mem _ hc))
          exact ⟨by rw [this.1], this.2⟩

theorem marker_not_in_natDigits (n : Nat) : (Char.ofNat 0x23A7) ∉ natDigits n := by
  intro hc
  have := natDigits_ascii hc
  have hv : (Char.ofNat 0x23A7).toNat = 0x23A7 := by decide
  omega

theorem mkBase_data (k : Nat) (nm : String) (x : String) :
    (mkBase k nm ++ x).data
      = ('f' :: natDigits k) ++ (Char.ofNat 0x23A7) :: (nm.data ++ '⎭' :: x.data) := by
  have hf : "f".data = ['f'] := rfl
  have hl : "⎧".data = [Char.ofNat 0x23A7] := rfl
  have hr : "⎭".data = ['⎭'] := rfl
  simp only [mkBase, natStr, String.data_append, hf, hl, hr]
  simp [List.append_assoc]

theorem mkBase_append_k_inj {k k' : Nat} {nm nm' x y : String}
    (h : mkBase k nm ++ x = mkBase k' nm' ++ y) : k = k' := by
  have hd := congrArg String.data h
  rw [mkBase_data, mkBase_data] at hd
  have hsplit := marker_split hd
    (by
      intro hc
      rcases List.mem_cons.mp hc with hc | hc
      · exact absurd hc (by decide)
      · exact marker_not_in_natDigits k hc)
    (by
      intro hc
      rcases List.mem_cons.mp hc with hc | hc
      · exact absurd hc (by decide)
      · exact marker_not_in_natDigits k' hc)
  have := hsplit.1
  simp only [List.cons.injEq, true_and] at this
  exact natDigits_inj this

/-- Injectivity of the intern surrogates `"f" + intern_counter`. -/
theorem internName_inj {m m' : Nat} (h : "f" ++ natStr m = "f" ++ natStr m') : m = m' := by
  have hd := congrArg String.data h
  have hf : "f".data = ['f'] := rfl
  simp only [String.data_append, hf, natStr, List.cons_append, List.nil_append,
    List.cons.injEq, true_and] at hd
  exact natDigits_inj hd

theorem mkBase_inj_k {k k' : Nat} {nm nm' : String} (h : mkBase k nm = mkBase k' nm') :
    k = k' := by
  apply mkBase_append_k_inj (x := "") (y := "")
  rw [String.append_empty, String.append_empty]
  exact h

/-! ### Classifier state machine -/

/-- One `classify` call of the context. -/
def ClsStep (s s' : ClassifyState) : Prop := ∃ t p, (classify s t p).2 = s'

/-- Any number of further `classify` calls within the same context. -/
def ClsReach : ClassifyState → ClassifyState → Prop := Relation.ReflTransGen ClsStep

theorem classBase_ids_persist {s : ClassifyState} {t : Template} {x : Nat} {c : String}
    (h : alookup s.ids x = some c) : alookup (classBase s t).2.ids x = some c := by
  unfold classBase
  cases hl : alookup s.ids t.tid with
  | some b => exact h
  | none => exact alookup_append_left h

theorem classBase_ids_self (s : ClassifyState) (t : Template) :
    alookup (classBase s t).2.ids t.tid = some (classBase s t).1 := by
  unfold classBase
  cases hl : alookup s.ids t.tid with
  | some b => exact hl
  | none =>
      simp only
      rw [alookup_append_right _ hl]
      simp [alookup]

theorem classBase_interned (s : ClassifyState) (t : Template) :
    (classBase s t).2.interned = s.interned := by
  unfold classBase
  cases alookup s.ids t.tid <;> rfl

theorem classBase_intern (s : ClassifyState) (t : Template) :
    (classBase s t).2.intern = s.intern := by
  unfold classBase
  cases alookup s.ids t.tid <;> rfl

theorem classBase_internCounter (s : ClassifyState) (t : Template) :
    (classBase s t).2.internCounter = s.internCounter := by
  unfold classBase
  cases alookup s.ids t.tid <;> rfl

theorem internize_ids (s : ClassifyState) (full : String) :
    (internize s full).2.ids = s.ids := by
  unfold internize
  cases hi : s.intern
  · simp
  · cases hl : alookup s.interned full <;> simp [hl]

theorem internize_counter (s : ClassifyState) (full : String) :
    (internize s full).2.counter = s.counter := by
  unfold internize
  cases hi : s.intern
  · simp
  · cases hl : alookup s.interned full <;> simp [hl]

theorem internize_intern (s : ClassifyState) (full : String) :
    (internize s full).2.intern = s.intern := by
  unfold internize
  cases hi : s.intern
  · simp [hi]
  · cases hl : alookup s.interned full <;> simp [hl, hi]

theorem internize_interned_persist {s : ClassifyState} {full x c : String}
    (h : alookup s.interned x = some c) :
    alookup (internize s full).2.interned x = some c := by
  unfold internize
  cases hi : s.intern
  · simpa using h
  · cases hl : alookup s.interned full with
    | some b => simpa [hl] using h
    | none =>
        simp only [hl, if_true, cond_true]
        exact alookup_append_left h

theorem internize_interned_self {s : ClassifyState} {full : String}
    (hi : s.intern = true) :
    alookup (internize s full).2.interned full = some (internize s full).1 := by
  unfold internize
  rw [hi]
  cases hl : alookup s.interned full with
  | some b => simpa using hl
  | none =>
      simp only [if_true]
      rw [alookup_append_right _ hl]
      simp [alookup]

theorem classify_eq (s : ClassifyState) (t : Template) (p : Params) :
    classify s t p = internize (classBase s t).2 (paramFold p (classBase s t).1) := rfl

theorem classify_ids_persist {s : ClassifyState} {t : Template} {p : Params} {x : Nat}
    {c : String} (h : alookup s.ids x = some c) :
    alookup (classify s t p).2.ids x = some c := by
  rw [classify_eq, internize_ids]
  exact classBase_ids_persist h

theorem classify_interned_persist {s : ClassifyState} {t : Template} {p : Params}
    {x c : String} (h : alookup s.interned x = some c) :
    alookup (classify s t p).2.interned x = some c := by
  rw [classify_eq]
  apply internize_interned_persist
  rw [classBase_interned]
  exact h

theorem classify_intern (s : ClassifyState) (t : Template) (p : Params) :
    (classify s t p).2.intern = s.intern := by
  rw [classify_eq, internize_intern, classBase_intern]

theorem reach_ids_persist {s s' : ClassifyState} {x : Nat} {c : String}
    (hr : ClsReach s s') (h : alookup s.ids x = some c) : alookup s'.ids x = some c := by
  induction hr with
  | refl => exact h
  | tail hab hbc ih =>
      obtain ⟨t, p, rfl⟩ := hbc
      exact classify_ids_persist ih

theorem reach_interned_persist {s s' : ClassifyState} {x c : String}
    (hr : ClsReach s s') (h : alookup s.interned x = some c) :
    alookup s'.interned x = some c := by
  induction hr with
  | refl => exact h
  | tail hab hbc ih =>
      obtain ⟨t, p, rfl⟩ := hbc
      exact classify_interned_persist ih

theorem reach_intern {s s' : ClassifyState} (hr : ClsReach s s') : s'.intern = s.intern := by
  induction hr with
  | refl => rfl
  | tail hab hbc ih =>
      obtain ⟨t, p, rfl⟩ := hbc
      rw [classify_intern]
      exact ih

/-- The classifier invariant: every id entry is `"f" + k + "⎧" + name + "⎭"`
with `k` below the counter and distinct templates hold distinct `k`; every
intern entry is `"f" + m` with `m` below the intern counter and distinct
full classes hold distinct surrogates. -/
structure ClsInv (s : ClassifyState) : Prop where
  idsForm : ∀ tc ∈ s.ids, ∃ k nm, k < s.counter ∧ tc.2 = mkBase k nm
  idsInj : ∀ tc ∈ s.ids, ∀ td ∈ s.ids, ∀ k nm k' nm',
      tc.2 = mkBase k nm → td.2 = mkBase k' nm' → tc.1 ≠ td.1 → k ≠ k'
  intForm : ∀ kv ∈ s.interned, ∃ m, m < s.internCounter ∧ kv.2 = "f" ++ natStr m
  intInj : ∀ kv ∈ s.interned, ∀ kw ∈ s.interned, kv.1 ≠ kw.1 → kv.2 ≠ kw.2

theorem clsInv_init (b : Bool) : ClsInv (clsInit b) := by
  refine ⟨?_, ?_, ?_, ?_⟩ <;> simp [clsInit]

theorem clsInv_classBase {s : ClassifyState} (t : Template) (h : ClsInv s) :
    ClsInv (classBase s t).2 := by
  unfold classBase
  cases hl : alookup s.ids t.tid with
  | some b => exact h
  | none =>
      simp only
      refine ⟨?_, ?_, h.intForm, h.intInj⟩
      · intro tc htc
        rcases List.mem_append.mp htc with hm | hm
        · obtain ⟨k, nm, hk, he⟩ := h.idsForm tc hm
          exact ⟨k, nm, Nat.lt_succ_of_lt hk, he⟩
        · simp only [List.mem_singleton] at hm
          subst hm
          exact ⟨s.counter, t.name, Nat.lt_succ_self _, rfl⟩
      · intro tc htc td htd k nm k' nm' hek hek' hne
        rcases List.mem_append.mp htc with hm | hm <;>
          rcases List.mem_append.mp htd with hm' | hm'
        · exact h.idsInj tc hm td hm' k nm k' nm' hek hek' hne
        · simp only [List.mem_singleton] at hm'
          subst hm'
          obtain ⟨k0, nm0, hk0, he0⟩ := h.idsForm tc hm
          rw [he0] at hek
          obtain rfl := mkBase_inj_k hek
          have : k' = s.counter := (mkBase_inj_k hek').symm
          omega
        · simp only [List.mem_singleton] at hm
          subst hm
          obtain ⟨k0, nm0, hk0, he0⟩ := h.idsForm td hm'
          rw [he0] at hek'
          obtain rfl := mkBase_inj_k hek'
          have : k = s.counter := (mkBase_inj_k hek).symm
          omega
        · simp only [List.mem_singleton] at hm hm'
          subst hm
          subst hm'
          exact absurd rfl hne

theorem clsInv_internize {s : ClassifyState} (full : String) (h : ClsInv s) :
    ClsInv (internize s full).2 := by
  unfold internize
  cases hi : s.intern
  · simpa using h
  · cases hl : alookup s.interned full with
    | some b => simpa [hl] using h
    | none =>
        simp only [hl, if_true]
        refine ⟨h.idsForm, h.idsInj, ?_, ?_⟩
        · intro kv hkv
          rcases List.mem_append.mp hkv with hm | hm
          · obtain ⟨m, hm0, he⟩ := h.intForm kv hm
            exact ⟨m, Nat.lt_succ_of_lt hm0, he⟩
          · simp only [List.mem_singleton] at hm
            subst hm
            exact ⟨s.internCounter, Nat.lt_succ_self _, rfl⟩
        · intro kv hkv kw hkw hne
          rcases List.mem_append.mp hkv with hm | hm <;>
            rcases List.mem_append.mp hkw with hm' | hm'
          · exact h.intInj kv hm kw hm' hne
          · simp only [List.mem_singleton] at hm'
            subst hm'
            obtain ⟨m, hm0, he⟩ := h.intForm kv hm
            rw [he]
            intro hc
            obtain rfl := internName_inj hc
            omega
          · simp only [List.mem_singleton] at hm
            subst hm
            obtain ⟨m, hm0, he⟩ := h.intForm kw hm'
            rw [he]
            intro hc
            obtain rfl := internName_inj hc.symm
            omega
          · simp only [List.mem_singleton] at hm hm'
            subst hm
            subst hm'
            exact absurd rfl hne

theorem clsInv_classify {s : ClassifyState} (t : Template) (p : Params) (h : ClsInv s) :
    ClsInv (classify s t p).2 := by
  rw [classify_eq]
  exact clsInv_internize _ (clsInv_classBase t h)

theorem clsInv_reach {s s' : ClassifyState} (hr : ClsReach s s') (h : ClsInv s) :
    ClsInv s' := by
  induction hr with
  | refl => exact h
  | tail hab hbc ih =>
      obtain ⟨t, p, rfl⟩ := hbc
      exact clsInv_classify t p ih

/-! ### Context lemmas: requiring -/

theorem aupdate_append_absent {α β : Type} [DecidableEq α] {l : List (α × β)} {a : α}
    {b : β} (b' : β) (h : alookup l a = none) :
    aupdate (l ++ [(a, b)]) a b' = l ++ [(a, b')] := by
  induction l with
  | nil => simp [aupdate]
  | cons p ps ih =>
      obtain ⟨k, v⟩ := p
      simp only [alookup] at h
      by_cases hk : k = a
      · rw [if_pos hk] at h
        exact absurd h (by simp)
      · rw [if_neg hk] at h
        simp only [List.cons_append, aupdate, List.append_eq]
        rw [if_neg hk, ih h]

theorem requireFragment_fresh {f : Fragment} {s : CtxState}
    (hact : s.active = true) (habs : alookup s.table f.cls = none) :
    requireFragment f s = .ok (⟨s.nextObj, s.nextRef, f.cls⟩,
      { s with
          table := s.table ++ [(f.cls, s.nextObj)],
          objects := s.objects ++ [(s.nextObj, ⟨f.statements, [s.nextRef], s.nextObj⟩)],
          nextObj := s.nextObj + 1,
          nextRef := s.nextRef + 1,
          insertLog := s.insertLog ++ [f.cls] }) := by
  unfold requireFragment
  rw [habs, hact]
  simp

theorem requireFragment_push {f : Fragment} {s : CtxState} {o : Nat}
    (hp : alookup s.table f.cls = some o) :
    requireFragment f s = .ok (⟨o, s.nextRef, f.cls⟩,
      { s with
          objects := aupdate s.objects o
            { getObj s o with references := (getObj s o).references ++ [s.nextRef] },
          nextRef := s.nextRef + 1 }) := by
  unfold requireFragment
  rw [hp]

theorem requireFragment_inactive {f : Fragment} {s : CtxState}
    (hact : s.active = false) (habs : alookup s.table f.cls = none) :
    requireFragment f s = .error .typeError := by
  unfold requireFragment
  rw [habs, hact]
  simp

theorem map_add_range_succ (r n : Nat) :
    (List.range (n + 1)).map (fun i => r + i)
      = r :: (List.range n).map (fun i => (r + 1) + i) := by
  rw [List.range_succ_eq_map, List.map_cons, List.map_map]
  refine congrArg₂ _ (by omega) ?_
  apply List.map_congr_left
  intro a _
  simp [Function.comp]
  omega

theorem map_rel_range_succ (o : Nat) (c : String) (r n : Nat) :
    (List.range (n + 1)).map (fun i => (⟨o, r + i, c⟩ : Releaser))
      = ⟨o, r, c⟩ :: (List.range n).map (fun i => (⟨o, (r + 1) + i, c⟩ : Releaser)) := by
  rw [List.range_succ_eq_map, List.map_cons, List.map_map]
  refine congrArg₂ _ (by rw [Nat.add_zero]) ?_
  apply List.map_congr_left
  intro a _
  simp only [Function.comp]
  refine congrArg (fun t => (⟨o, t, c⟩ : Releaser)) ?_
  omega

theorem requireList_cons_ok {f : Fragment} {fs : List Fragment} {s s1 : CtxState}
    {r : Releaser} (h : requireFragment f s = .ok (r, s1)) :
    requireList (f :: fs) s =
      ((requireList fs s1).1, r :: (requireList fs s1).2.1, (requireList fs s1).2.2) := by
  simp only [requireList, h]

theorem requireList_cons_error {f : Fragment} {fs : List Fragment} {s : CtxState}
    {e : JsErr} (h : requireFragment f s = .error e) :
    requireList (f :: fs) s = (some e, [], s) := by
  simp only [requireList, h]

/-- Requiring the same fragment `n` more times while its requisition is live
pushes `n` fresh reference tokens and never invokes the inserter. -/
theorem requireList_replicate_push (f : Fragment) (o : Nat) :
    ∀ (n : Nat) (s : CtxState) (q : Requisition),
      alookup s.table f.cls = some o →
      alookup s.objects o = some q →
      requireList (List.replicate n f) s =
        (none,
         (List.range n).map (fun i => (⟨o, s.nextRef + i, f.cls⟩ : Releaser)),
         { s with
             objects := aupdate s.objects o
               { q with references :=
                   q.references ++ (List.range n).map (fun i => s.nextRef + i) },
             nextRef := s.nextRef + n }) := by
  intro n
  induction n with
  | zero =>
      intro s q ht ho
      simp only [List.replicate, requireList, List.range_zero, List.map_nil,
        List.append_nil]
      rw [show ({ q with references := q.references } : Requisition) = q from rfl]
      rw [aupdate_self ho]
      rfl
  | succ n ih =>
      intro s q ht ho
      have hq : getObj s o = q := by
        unfold getObj
        rw [ho]
        rfl
      have hreq := requireFragment_push (s := s) ht
      rw [hq] at hreq
      rw [List.replicate_succ, requireList_cons_ok hreq]
      rw [ih
        { s with
            objects := aupdate s.objects o
              { q with references := q.references ++ [s.nextRef] },
            nextRef := s.nextRef + 1 }
        { q with references := q.references ++ [s.nextRef] }
        ht
        (alookup_aupdate_self (by rw [ho]; rfl))]
      dsimp only
      rw [aupdate_aupdate]
      rw [map_rel_range_succ, map_add_range_succ]
      simp only [List.append_assoc, List.singleton_append]
      refine congrArg₂ _ rfl (congrArg₂ _ rfl ?_)
      congr 1
      omega

/-- Requiring a fresh fragment `N ≥ 1` times from an active context: one
inserter call, then `N - 1` pushed references. -/
theorem requireList_replicate_fresh (f : Fragment) (N : Nat) (hN : 1 ≤ N) (s : CtxState)
    (hact : s.active = true) (habs : alookup s.table f.cls = none)
    (habso : alookup s.objects s.nextObj = none) :
    requireList (List.replicate N f) s =
      (none,
       (List.range N).map (fun i => (⟨s.nextObj, s.nextRef + i, f.cls⟩ : Releaser)),
       { s with
           table := s.table ++ [(f.cls, s.nextObj)],
           objects := s.objects ++
             [(s.nextObj,
               ⟨f.statements, (List.range N).map (fun i => s.nextRef + i), s.nextObj⟩)],
           nextObj := s.nextObj + 1,
           nextRef := s.nextRef + N,
           insertLog := s.insertLog ++ [f.cls] }) := by
  obtain ⟨n, rfl⟩ : ∃ n, N = n + 1 := ⟨N - 1, by omega⟩
  rw [List.replicate_succ, requireList_cons_ok (requireFragment_fresh hact habs)]
  have h1 := requireList_replicate_push f s.nextObj n
    { s with
        table := s.table ++ [(f.cls, s.nextObj)],
        objects := s.objects ++ [(s.nextObj, ⟨f.statements, [s.nextRef], s.nextObj⟩)],
        nextObj := s.nextObj + 1,
        nextRef := s.nextRef + 1,
        insertLog := s.insertLog ++ [f.cls] }
    ⟨f.statements, [s.nextRef], s.nextObj⟩
    (by
      simp only
      rw [alookup_append_right _ habs]
      simp [alookup])
    (by
      simp only
      rw [alookup_append_right _ habso]
      simp [alookup])
  rw [h1]
  dsimp only
  rw [aupdate_append_absent _ habso]
  rw [map_rel_range_succ, map_add_range_succ]
  simp only [List.singleton_append]
  refine congrArg₂ _ rfl (congrArg₂ _ rfl ?_)
  congr 1
  omega

/-! ### Context lemmas: releasing -/

/-- Executing the release closures of tokens `ts`, all bound to requisition
object `o` of class `c`, in list order. -/
def releaseTokens (ts : List Nat) (o : Nat) (c : String) (s : CtxState) : CtxState :=
  ts.foldl (fun s t => releaseFragment ⟨o, t, c⟩ s) s

theorem releaseFragment_absent {r : Releaser} {s : CtxState}
    (hm : r.ref ∉ (getObj s r.obj).references) : releaseFragment r s = s := by
  unfold releaseFragment
  simp [hm]

theorem releaseFragment_mem {r : Releaser} {s : CtxState} {q : Requisition}
    (ho : alookup s.objects r.obj = some q) (hm : r.ref ∈ q.references)
    (hne : q.references.erase r.ref ≠ []) :
    releaseFragment r s =
      { s with
          objects := aupdate s.objects r.obj
            { q with references := q.references.erase r.ref } } := by
  unfold releaseFragment getObj
  rw [ho]
  simp [hm, hne]

theorem releaseFragment_last {r : Releaser} {s : CtxState} {q : Requisition}
    (ho : alookup s.objects r.obj = some q) (hm : r.ref ∈ q.references)
    (hnil : q.references.erase r.ref = []) :
    releaseFragment r s =
      { s with
          objects := aupdate s.objects r.obj { q with references := [] },
          removeLog := s.removeLog ++ [q.removeId],
          table := aerase s.table r.cls } := by
  unfold releaseFragment getObj
  rw [ho]
  simp [hm, hnil]

theorem foldl_erase_eq_filter : ∀ (ts refs : List Nat), refs.Nodup →
    ts.foldl (fun refs t => refs.erase t) refs
      = refs.filter (fun x => decide (x ∉ ts)) := by
  intro ts
  induction ts with
  | nil =>
      intro refs h
      simp
  | cons t ts ih =>
      intro refs h
      rw [List.foldl_cons, ih _ (h.erase t), List.Nodup.erase_eq_filter h,
        List.filter_filter]
      apply List.filter_congr
      intro x hx
      by_cases h1 : x = t <;> by_cases h2 : x ∈ ts <;> simp [h1, h2]

theorem releaseTokens_go (o : Nat) (c : String) :
    ∀ (ts : List Nat) (s : CtxState) (q : Requisition),
      alookup s.objects o = some q →
      ts.Nodup →
      (∀ t ∈ ts, t ∈ q.references) →
      ts.length < q.references.length →
      q.references.Nodup →
      releaseTokens ts o c s =
        { s with
            objects := aupdate s.objects o
              { q with references := ts.foldl (fun refs t => refs.erase t) q.references } } := by
  intro ts
  induction ts with
  | nil =>
      intro s q ho _ _ _ _
      simp only [releaseTokens, List.foldl_nil]
      rw [show ({ q with references := q.references } : Requisition) = q from rfl,
        aupdate_self ho]
  | cons t ts ih =>
      intro s q ho hnd hsub hlen hrefs
      have hmem : t ∈ q.references := hsub t (List.mem_cons_self t ts)
      have hlen_er : (q.references.erase t).length = q.references.length - 1 :=
        List.length_erase_of_mem hmem
      have hlen0 : ts.length + 1 < q.references.length := by
        simpa using hlen
      have hne : q.references.erase t ≠ [] := by
        intro hc
        rw [hc] at hlen_er
        simp only [List.length_nil] at hlen_er
        omega
      have hstep : releaseTokens (t :: ts) o c s
          = releaseTokens ts o c (releaseFragment ⟨o, t, c⟩ s) := rfl
      rw [hstep, releaseFragment_mem ho hmem hne]
      have hni : t ∉ ts := (List.nodup_cons.mp hnd).1
      have hsub' : ∀ t' ∈ ts, t' ∈ q.references.erase t := by
        intro t' ht'
        have hne' : t' ≠ t := fun hc => hni (hc ▸ ht')
        exact (List.mem_erase_of_ne hne').mpr (hsub t' (List.mem_cons_of_mem _ ht'))
      have hlen' : ts.length < (q.references.erase t).length := by
        rw [hlen_er]
        omega
      rw [ih
          { s with
              objects := aupdate s.objects o
                { q with references := q.references.erase t } }
          { q with references := q.references.erase t }
          (alookup_aupdate_self (by rw [ho]; rfl))
          ((List.nodup_cons.mp hnd).2) hsub' hlen' (hrefs.erase t)]
      dsimp only
      rw [aupdate_aupdate]
      rfl

theorem eq_singleton_of_mem_of_all {l : List Nat} {a : Nat} (hn : l.Nodup) (hm : a ∈ l)
    (hall : ∀ x ∈ l, x = a) : l = [a] := by
  cases l with
  | nil => cases hm
  | cons x xs =>
      have hx : x = a := hall x (List.mem_cons_self _ _)
      subst hx
      cases xs with
      | nil => rfl
      | cons y ys =>
          have hy : y = x := hall y (by simp)
          exact absurd (by rw [hy]; exact List.mem_cons_self _ _)
            (List.nodup_cons.mp hn).1

theorem filter_remaining {tokens ts : List Nat} {tl : Nat} (hnt : tokens.Nodup)
    (hnd : ts.Nodup) (hsub : ∀ t ∈ ts, t ∈ tokens) (hlen : tokens.length = ts.length + 1)
    (hmem : tl ∈ tokens) (hni : tl ∉ ts) :
    tokens.filter (fun x => decide (x ∉ ts)) = [tl] := by
  apply eq_singleton_of_mem_of_all (hnt.filter _)
  · rw [List.mem_filter]
    exact ⟨hmem, by simpa using hni⟩
  · intro x hx
    rw [List.mem_filter] at hx
    obtain ⟨hx1, hx2⟩ := hx
    by_contra hne
    have hx2' : x ∉ ts := by simpa using hx2
    have hnodup : (x :: tl :: ts).Nodup := by
      rw [List.nodup_cons, List.nodup_cons]
      refine ⟨?_, hni, hnd⟩
      intro hc
      rcases List.mem_cons.mp hc with hc | hc
      · exact hne hc
      · exact hx2' hc
    have hsub2 : (x :: tl :: ts) ⊆ tokens := by
      intro y hy
      rcases List.mem_cons.mp hy with rfl | hy
      · exact hx1
      rcases List.mem_cons.mp hy with rfl | hy
      · exact hmem
      · exact hsub y hy
    have hlen2 := (hnodup.subperm hsub2).length_le
    simp only [List.length_cons] at hlen2
    omega

theorem nodup_map_add_range (r n : Nat) :
    ((List.range n).map (fun i => r + i)).Nodup := by
  apply List.Nodup.map
  · intro a b hab
    simp only [] at hab
    omega
  · exact List.nodup_range n

/-! ### Well-formedness and idempotence of release

Reference tokens are fresh `{}` objects in the source, so a reference list
never holds the same token twice; `WfRefs` captures this. -/

def WfRefs (s : CtxState) : Prop :=
  ∀ o q, alookup s.objects o = some q → q.references.Nodup

theorem getObj_refs_nodup {s : CtxState} (h : WfRefs s) (o : Nat) :
    (getObj s o).references.Nodup := by
  unfold getObj
  cases ho : alookup s.objects o with
  | none => simp
  | some q => exact h o q ho

theorem getObj_eq_of_lookup {s : CtxState} {o : Nat} {q : Requisition}
    (ho : alookup s.objects o = some q) : getObj s o = q := by
  unfold getObj
  rw [ho]
  rfl

theorem releaseFragment_refs_subset {r : Releaser} {s : CtxState} {o' x : Nat}
    (hx : x ∈ (getObj (releaseFragment r s) o').references) :
    x ∈ (getObj s o').references := by
  by_cases hm : r.ref ∈ (getObj s r.obj).references
  · cases ho : alookup s.objects r.obj with
    | none =>
        exfalso
        unfold getObj at hm
        rw [ho] at hm
        simp at hm
    | some q =>
        have hq : getObj s r.obj = q := getObj_eq_of_lookup ho
        rw [hq] at hm
        have hupd : ∀ (s' : CtxState) (q' : Requisition),
            s'.objects = aupdate s.objects r.obj q' →
            q'.references = q.references.erase r.ref →
            x ∈ (getObj s' o').references → x ∈ (getObj s o').references := by
          intro s' q' hobj hrefs hx'
          by_cases ho' : o' = r.obj
          · subst ho'
            have hg : getObj s' r.obj = q' := by
              unfold getObj
              rw [hobj, alookup_aupdate_self (by rw [ho]; rfl)]
              rfl
            rw [hg, hrefs] at hx'
            rw [hq]
            exact (q.references.erase_sublist r.ref).mem hx'
          · have hg : getObj s' o' = getObj s o' := by
              unfold getObj
              rw [hobj, alookup_aupdate_ne ho']
            rw [hg] at hx'
            exact hx'
        by_cases hnil : q.references.erase r.ref = []
        · rw [releaseFragment_last ho hm hnil] at hx
          exact hupd _ { q with references := [] } rfl (by rw [hnil]) hx
        · rw [releaseFragment_mem ho hm hnil] at hx
          exact hupd _ { q with references := q.references.erase r.ref } rfl rfl hx
  · rw [releaseFragment_absent hm] at hx
    exact hx

theorem releaseFragment_self_not_mem {r : Releaser} {s : CtxState}
    (hwf : (getObj s r.obj).references.Nodup) :
    r.ref ∉ (getObj (releaseFragment r s) r.obj).references := by
  by_cases hm : r.ref ∈ (getObj s r.obj).references
  · cases ho : alookup s.objects r.obj with
    | none =>
        exfalso
        unfold getObj at hm
        rw [ho] at hm
        simp at hm
    | some q =>
        have hq : getObj s r.obj = q := getObj_eq_of_lookup ho
        rw [hq] at hm hwf
        have hupd : ∀ (s' : CtxState) (q' : Requisition),
            s'.objects = aupdate s.objects r.obj q' →
            q'.references = q.references.erase r.ref →
            r.ref ∉ (getObj s' r.obj).references := by
          intro s' q' hobj hrefs
          have : getObj s' r.obj = q' := by
            unfold getObj
            rw [hobj, alookup_aupdate_self (by rw [ho]; rfl)]
            rfl
          rw [this, hrefs]
          exact hwf.not_mem_erase
        by_cases hnil : q.references.erase r.ref = []
        · rw [releaseFragment_last ho hm hnil]
          exact hupd _ { q with references := [] } rfl (by rw [hnil])
        · rw [releaseFragment_mem ho hm hnil]
          exact hupd _ { q with references := q.references.erase r.ref } rfl rfl
  · rw [releaseFragment_absent hm]
    exact hm

theorem releaseFragment_wf {r : Releaser} {s : CtxState} (h : WfRefs s) :
    WfRefs (releaseFragment r s) := by
  by_cases hm : r.ref ∈ (getObj s r.obj).references
  · cases ho : alookup s.objects r.obj with
    | none =>
        exfalso
        unfold getObj at hm
        rw [ho] at hm
        simp at hm
    | some q =>
        have hq : getObj s r.obj = q := getObj_eq_of_lookup ho
        rw [hq] at hm
        have hupd : ∀ (s' : CtxState) (q' : Requisition),
            s'.objects = aupdate s.objects r.obj q' →
            q'.references = q.references.erase r.ref →
            WfRefs s' := by
          intro s' q' hobj hrefs o'' q'' ho''
          by_cases he : o'' = r.obj
          · subst he
            rw [hobj, alookup_aupdate_self (by rw [ho]; rfl)] at ho''
            obtain rfl := Option.some.inj ho''
            rw [hrefs]
            exact (h _ _ ho).erase r.ref
          · rw [hobj, alookup_aupdate_ne he] at ho''
            exact h _ _ ho''
        by_cases hnil : q.references.erase r.ref = []
        · rw [releaseFragment_last ho hm hnil]
          exact hupd _ { q with references := [] } rfl (by rw [hnil])
        · rw [releaseFragment_mem ho hm hnil]
          exact hupd _ { q with references := q.references.erase r.ref } rfl rfl
  · rw [releaseFragment_absent hm]
    exact h

theorem releaseList_notmem_preserved :
    ∀ (rs : List Releaser) (s : CtxState) (o x : Nat),
      x ∉ (getObj s o).references →
      x ∉ (getObj (rs.foldl (fun s r => releaseFragment r s) s) o).references := by
  intro rs
  induction rs with
  | nil => intro s o x hx; exact hx
  | cons r rest ih =>
      intro s o x hx
      rw [List.foldl_cons]
      exact ih _ o x (fun hc => hx (releaseFragment_refs_subset hc))

theorem releaseList_wf : ∀ (rs : List Releaser) (s : CtxState), WfRefs s →
    WfRefs (rs.foldl (fun s r => releaseFragment r s) s) := by
  intro rs
  induction rs with
  | nil => intro s h; exact h
  | cons r rest ih =>
      intro s h
      rw [List.foldl_cons]
      exact ih _ (releaseFragment_wf h)

theorem releaseList_all_removed :
    ∀ (rs : List Releaser) (s : CtxState), WfRefs s →
      ∀ r ∈ rs, r.ref ∉ (getObj (rs.foldl (fun s r => releaseFragment r s) s) r.obj).references := by
  intro rs
  induction rs with
  | nil => intro s _ r hr; cases hr
  | cons r0 rest ih =>
      intro s hwf r hr
      rw [List.foldl_cons]
      rcases List.mem_cons.mp hr with rfl | hr
      · exact releaseList_notmem_preserved rest _ r.obj r.ref
          (releaseFragment_self_not_mem (getObj_refs_nodup hwf r.obj))
      · exact ih _ (releaseFragment_wf hwf) r hr

theorem releaseList_noop :
    ∀ (rs : List Releaser) (s : CtxState),
      (∀ r ∈ rs, r.ref ∉ (getObj s r.obj).references) →
      rs.foldl (fun s r => releaseFragment r s) s = s := by
  intro rs
  induction rs with
  | nil => intro s _; rfl
  | cons r0 rest ih =>
      intro s h
      rw [List.foldl_cons, releaseFragment_absent (h r0 (List.mem_cons_self _ _))]
      exact ih s (fun r hr => h r (List.mem_cons_of_mem _ hr))

/-! ### Decomposed behaviour of one `classify` call -/

theorem classBase_of_lookup {s : ClassifyState} {t : Template} {b : String}
    (h : alookup s.ids t.tid = some b) : classBase s t = (b, s) := by
  unfold classBase
  rw [h]

theorem internize_false {s : ClassifyState} {full : String} (hi : s.intern = false) :
    internize s full = (full, s) := by
  unfold internize
  rw [hi]
  simp

theorem internize_of_lookup {s : ClassifyState} {full c : String} (hi : s.intern = true)
    (h : alookup s.interned full = some c) : internize s full = (c, s) := by
  unfold internize
  rw [hi, h]
  simp

theorem classify_spec {s s' : ClassifyState} {t : Template} {p : Params} {c : String}
    (h : classify s t p = (c, s')) :
    alookup s'.ids t.tid = some (classBase s t).1
    ∧ s'.intern = s.intern
    ∧ (s.intern = false → c = paramFold p (classBase s t).1)
    ∧ (s.intern = true →
        alookup s'.interned (paramFold p (classBase s t).1) = some c) := by
  have h1 : internize (classBase s t).2 (paramFold p (classBase s t).1) = (c, s') := by
    rw [← classify_eq]
    exact h
  have hsnd : s' = (internize (classBase s t).2 (paramFold p (classBase s t).1)).2 := by
    rw [h1]
  have hfst : c = (internize (classBase s t).2 (paramFold p (classBase s t).1)).1 := by
    rw [h1]
  refine ⟨?_, ?_, ?_, ?_⟩
  · rw [hsnd, internize_ids]
    exact classBase_ids_self s t
  · rw [hsnd, internize_intern, classBase_intern]
  · intro hi
    have hi' : (classBase s t).2.intern = false := by rw [classBase_intern]; exact hi
    rw [hfst, internize_false hi']
  · intro hi
    have hi' : (classBase s t).2.intern = true := by rw [classBase_intern]; exact hi
    rw [hsnd, hfst]
    exact internize_interned_self hi'

theorem classBase_fst_form {s : ClassifyState} (t : Template) (h : ClsInv s) :
    ∃ k nm, (classBase s t).1 = mkBase k nm := by
  unfold classBase
  cases hl : alookup s.ids t.tid with
  | none => exact ⟨s.counter, t.name, rfl⟩
  | some b =>
      obtain ⟨k, nm, _, he⟩ := h.idsForm (t.tid, b) (alookup_mem hl)
      exact ⟨k, nm, he⟩

theorem fragify_arr_nil (cs : ClassifyState) : fragify (.arr []) cs = ([], cs) := by
  simp [fragify]

theorem require_empty (s : FullState) : require (.arr []) s = (.ok ⟨[], []⟩, s) := by
  unfold require
  rw [fragify_arr_nil]
  rfl

/-! ### Claim theorems -/

/-- C10: requiring the empty-array requireable `[]` always succeeds: the
handle's `classes` array is empty and it has no releasers, its release is a
no-op, the inserter is never invoked and the requisition table is unchanged
(the entire state is unchanged) — in every context state, including after
`dispose()`. -/
theorem c10_require_empty_array (s : FullState) :
    require (.arr []) s = (.ok ⟨[], []⟩, s)
    ∧ releaseHandle ⟨[], []⟩ s.ctx = s.ctx :=
  ⟨require_empty s, rfl⟩

/-- C8: a handle's release is idempotent: after the handle's releasers have
run once, running them all again removes no references, invokes no removal
callback and leaves the whole context state (requisition table, object heap
and both logs) exactly as it was, also when other handles still hold
references to the same classes.  `WfRefs` states that no reference token is
held twice, which holds in every reachable state because the source creates
a fresh `{}` token per registration. -/
theorem c8_release_idempotent (h : Handle) (s : CtxState) (hwf : WfRefs s) :
    releaseHandle h (releaseHandle h s) = releaseHandle h s :=
  releaseList_noop _ _ (releaseList_all_removed h.releasers s hwf)

theorem c8_release_idempotent_witness :
    releaseHandle ⟨["a"], [⟨0, 0, "a"⟩]⟩
        (releaseHandle ⟨["a"], [⟨0, 0, "a"⟩]⟩
          ⟨true, [("a", 0)], [(0, ⟨"x", [0, 1], 0⟩)], 1, 2, ["a"], []⟩)
      = releaseHandle ⟨["a"], [⟨0, 0, "a"⟩]⟩
          ⟨true, [("a", 0)], [(0, ⟨"x", [0, 1], 0⟩)], 1, 2, ["a"], []⟩ := by
  apply c8_release_idempotent
  intro o q ho
  simp only [alookup] at ho
  by_cases h0 : (0 : Nat) = o
  · rw [if_pos h0] at ho
    obtain rfl := Option.some.inj ho
    decide
  · rw [if_neg h0] at ho
    exact absurd ho (by simp)

/-- C5 failing trace: require one fragment (class `"a"`), then `dispose()`,
then release the handle.  `dispose` invokes the requisition's removal
callback but clears neither the requisition table nor the reference lists,
so the release closure still finds its reference, reaches zero references,
and invokes the same removal callback a second time. -/
def c5trace : CtxState :=
  match requireFragment ⟨"a", "x"⟩ initCtx with
  | .ok (r, s1) => releaseFragment r (dispose s1)
  | .error _ => initCtx

/-- C5: the code violates "calls the returned removal callback at most
once": in the trace require-dispose-release, the removal callback of
requisition object `0` is invoked twice (`removeLog = [0, 0]`). -/
theorem c5_remove_called_twice : c5trace.removeLog = [0, 0] := rfl

/-- C3 counterexample: after `dispose()`, a `require` of the empty-array
requireable still succeeds and returns a handle; it does not fail with
`NotActive` (nor any other error). -/
theorem c3_counterexample :
    (require (.arr []) ⟨dispose initCtx, clsInit false⟩).1 = .ok ⟨[], []⟩ := by
  rw [require_empty]

/-- C3 amended: after `dispose()` (`insert = undefined`, i.e.
`active = false`), only a require that reaches a fragment whose class has no
live requisition fails — with the `TypeError` of calling the undefined
`insert`, not a dedicated `NotActive` error.  A require of an empty
requireable succeeds and changes nothing, and a require of a fragment whose
class is still in the requisition table (dispose does not clear the table)
silently succeeds by pushing a reference. -/
theorem c3_amended :
    (∀ (f : Fragment) (s : CtxState), s.active = false →
        alookup s.table f.cls = none → requireFragment f s = .error .typeError)
    ∧ (∀ (f : Fragment) (s : CtxState) (o : Nat), alookup s.table f.cls = some o →
        ∃ rel s1, requireFragment f s = .ok (rel, s1))
    ∧ (∀ (s : FullState), require (.arr []) s = (.ok ⟨[], []⟩, s)) := by
  refine ⟨?_, ?_, fun s => require_empty s⟩
  · intro f s ha hn
    exact requireFragment_inactive ha hn
  · intro f s o hp
    exact ⟨_, _, requireFragment_push hp⟩

/-- C3: the context considered in the amended claim, after one require and a
dispose. -/
def c3pre : CtxState :=
  match requireFragment ⟨"a", "x"⟩ initCtx with
  | .ok (_, s1) => dispose s1
  | .error _ => initCtx

theorem c3_amended_witness :
    (c3pre.active = false ∧ alookup c3pre.table "b" = none
      ∧ requireFragment ⟨"b", "y"⟩ c3pre = .error .typeError)
    ∧ (alookup c3pre.table "a" = some 0
      ∧ ∃ rel s1, requireFragment ⟨"a", "z"⟩ c3pre = .ok (rel, s1))
    ∧ require (.arr []) ⟨c3pre, clsInit false⟩ = (.ok ⟨[], []⟩, ⟨c3pre, clsInit false⟩) := by
  have h := c3_amended
  exact ⟨⟨rfl, rfl, h.1 ⟨"b", "y"⟩ c3pre rfl rfl⟩,
    ⟨rfl, h.2.1 ⟨"a", "z"⟩ c3pre 0 rfl⟩, h.2.2 ⟨c3pre, clsInit false⟩⟩

/-- C1: the context state after requiring the fragment
`{class: "a", statements: "x"}` once. -/
def c1pre : CtxState :=
  match requireFragment ⟨"a", "x"⟩ initCtx with
  | .ok (_, s1) => s1
  | .error _ => initCtx

/-- C1 counterexample: requiring `{class: "a", statements: "y"}` while the
live requisition for `"a"` holds canonical statements `"x"` does not fail at
all in the 2023-10-25 context: it returns a releaser and a state in which
the conflicting fragment was silently given a reference (references
`[0, 1]`) and the canonical statements are still `"x"`. -/
theorem c1_counterexample :
    requireFragment ⟨"a", "y"⟩ c1pre
      = .ok (⟨0, 1, "a"⟩,
        { active := true, table := [("a", 0)], objects := [(0, ⟨"x", [0, 1], 0⟩)],
          nextObj := 1, nextRef := 2, insertLog := ["a"], removeLog := [] }) := rfl

/-- C1 amended: the 2023-10-25 `require_fragment` (src/fstyle.js lines
496-525) performs no statements comparison: a fragment whose class equals a
live requisition's class but whose statements differ is registered silently —
one fresh reference is pushed, the stored canonical statements stay
unchanged and the inserter is not invoked.  The collision check exists only
in the earlier snapshots: the 2021-12-18 `require_fragment` (lines 195-220)
fails with "Rules must not change." on such a mismatch. -/
theorem c1_amended :
    (∀ (f : Fragment) (s : CtxState) (o : Nat) (q : Requisition),
        alookup s.table f.cls = some o → alookup s.objects o = some q →
        f.statements ≠ q.statements →
        requireFragment f s = .ok (⟨o, s.nextRef, f.cls⟩,
          { s with
              objects := aupdate s.objects o
                { q with references := q.references ++ [s.nextRef] },
              nextRef := s.nextRef + 1 }))
    ∧ (∀ (f : Fragment21) (s : Ctx21) (q : Requisite21),
        rx_class f.cls = true → alookup s.requisites f.cls = some q →
        f.rules ≠ q.rules →
        require_fragment21 f s = .error "Rules must not change.") := by
  constructor
  · intro f s o q ht ho hne
    rw [requireFragment_push ht, getObj_eq_of_lookup ho]
  · intro f s q hrx hq hne
    unfold require_fragment21
    rw [hrx]
    simp only [Bool.true_eq_false, if_false, hq, Option.getD_some]
    rw [if_pos hne]

theorem c1_amended_witness :
    (requireFragment ⟨"a", "y"⟩ c1pre
      = .ok (⟨0, 1, "a"⟩,
        { c1pre with
            objects := aupdate c1pre.objects 0 ⟨"x", [0, 1], 0⟩,
            nextRef := 2 }))
    ∧ require_fragment21 ⟨"a", "y"⟩ ⟨[("a", ⟨1, "x"⟩)], ["a"]⟩
        = .error "Rules must not change." := by
  have h := c1_amended
  constructor
  · have h1 := h.1 ⟨"a", "y"⟩ c1pre 0 ⟨"x", [0], 0⟩ rfl rfl (by decide)
    rw [h1]
    rfl
  · exact h.2 ⟨"a", "y"⟩ ⟨[("a", ⟨1, "x"⟩)], ["a"]⟩ ⟨1, "x"⟩ (by decide) rfl (by decide)

/-- C7 counterexample: `"@"` fails the class-token grammar and `""` is an
empty statements string, yet the 2023-10-25 `require_fragment` registers the
fragment `{class: "@", statements: ""}` without any error and invokes the
inserter for it — there is no `BadClass`/`BadStatements` validation. -/
theorem c7_counterexample :
    rx_class "@" = false
    ∧ requireFragment ⟨"@", ""⟩ initCtx
        = .ok (⟨0, 0, "@"⟩,
          { active := true, table := [("@", 0)], objects := [(0, ⟨"", [0], 0⟩)],
            nextObj := 1, nextRef := 1, insertLog := ["@"], removeLog := [] }) :=
  ⟨by decide, rfl⟩

/-- C7 amended: the 2023-10-25 `require` performs no per-fragment validation
at all: while active, every fragment is accepted whatever its class or
statements.  The grammar check lives only in the earlier snapshots: the
2021-12-18 `require_fragment` (lines 192-204) fails with "Bad class."
exactly when the class fails `rx_class`, and accepts an empty rules string
(the spec's "non-empty" requirement is checked nowhere). -/
theorem c7_amended :
    (∀ (f : Fragment) (s : CtxState), s.active = true →
        ∃ rel s1, requireFragment f s = .ok (rel, s1))
    ∧ (∀ (f : Fragment21) (s : Ctx21), rx_class f.cls = false →
        require_fragment21 f s = .error "Bad class.")
    ∧ (∀ (s : Ctx21) (c : String), rx_class c = true → alookup s.requisites c = none →
        require_fragment21 ⟨c, ""⟩ s
          = .ok ⟨s.requisites ++ [(c, ⟨1, ""⟩)], s.insertLog ++ [c]⟩) := by
  refine ⟨?_, ?_, ?_⟩
  · intro f s hact
    cases ht : alookup s.table f.cls with
    | some o => exact ⟨_, _, requireFragment_push ht⟩
    | none => exact ⟨_, _, requireFragment_fresh hact ht⟩
  · intro f s h
    unfold require_fragment21
    rw [h]
    simp
  · intro s c hrx habs
    unfold require_fragment21
    rw [hrx]
    simp only [Bool.true_eq_false, if_false, habs, Option.getD_none]
    rw [if_neg (by simp)]
    rfl

/-- C2: reference counting.  From any active state in which the fragment's
class has no live requisition, the next object id is fresh and the inserter
has never been called for that class: `N ≥ 1` requires of the fragment
succeed, invoke the inserter exactly once for the class, invoke no removal
callback, and leave one requisition holding `N` distinct reference tokens;
releasing any `N - 1` of the corresponding handles, in any order, still
invokes no removal callback and keeps the requisition; releasing the
remaining one appends exactly one removal-callback invocation and deletes
the requisition from the table. -/
theorem c2_refcount (s0 sN : CtxState) (f : Fragment) (N : Nat)
    (e : Option JsErr) (rels : List Releaser)
    (hN : 1 ≤ N) (hact : s0.active = true)
    (habs : alookup s0.table f.cls = none)
    (habso : alookup s0.objects s0.nextObj = none)
    (hcnt : s0.insertLog.count f.cls = 0)
    (hrun : requireList (List.replicate N f) s0 = (e, rels, sN)) :
    e = none
    ∧ rels = (List.range N).map (fun i => (⟨s0.nextObj, s0.nextRef + i, f.cls⟩ : Releaser))
    ∧ sN.insertLog.count f.cls = 1
    ∧ sN.removeLog = s0.removeLog
    ∧ alookup sN.table f.cls = some s0.nextObj
    ∧ (getObj sN s0.nextObj).references = (List.range N).map (fun i => s0.nextRef + i)
    ∧ ∀ ts : List Nat, ts.Nodup →
        (∀ t ∈ ts, t ∈ (List.range N).map (fun i => s0.nextRef + i)) →
        ts.length = N - 1 →
        (releaseTokens ts s0.nextObj f.cls sN).removeLog = s0.removeLog
        ∧ alookup (releaseTokens ts s0.nextObj f.cls sN).table f.cls = some s0.nextObj
        ∧ ∀ tl, tl ∈ (List.range N).map (fun i => s0.nextRef + i) → tl ∉ ts →
            (releaseFragment ⟨s0.nextObj, tl, f.cls⟩
                (releaseTokens ts s0.nextObj f.cls sN)).removeLog
              = s0.removeLog ++ [s0.nextObj]
            ∧ alookup (releaseFragment ⟨s0.nextObj, tl, f.cls⟩
                (releaseTokens ts s0.nextObj f.cls sN)).table f.cls = none := by
  have hfresh := requireList_replicate_fresh f N hN s0 hact habs habso
  rw [hrun] at hfresh
  have he : e = none := congrArg (fun x => x.1) hfresh
  have hrels : rels
      = (List.range N).map (fun i => (⟨s0.nextObj, s0.nextRef + i, f.cls⟩ : Releaser)) :=
    congrArg (fun x => x.2.1) hfresh
  have hsN : sN =
      { s0 with
          table := s0.table ++ [(f.cls, s0.nextObj)],
          objects := s0.objects ++
            [(s0.nextObj,
              ⟨f.statements, (List.range N).map (fun i => s0.nextRef + i), s0.nextObj⟩)],
          nextObj := s0.nextObj + 1,
          nextRef := s0.nextRef + N,
          insertLog := s0.insertLog ++ [f.cls] } :=
    congrArg (fun x => x.2.2) hfresh
  subst hsN
  have hlookT : alookup (s0.table ++ [(f.cls, s0.nextObj)]) f.cls = some s0.nextObj := by
    rw [alookup_append_right _ habs]
    simp [alookup]
  have hlookO : alookup
      (s0.objects ++
        [(s0.nextObj,
          ⟨f.statements, (List.range N).map (fun i => s0.nextRef + i), s0.nextObj⟩)])
      s0.nextObj
      = some ⟨f.statements, (List.range N).map (fun i => s0.nextRef + i), s0.nextObj⟩ := by
    rw [alookup_append_right _ habso]
    simp [alookup]
  have htok_nodup : ((List.range N).map (fun i => s0.nextRef + i)).Nodup :=
    nodup_map_add_range _ _
  have htok_len : ((List.range N).map (fun i => s0.nextRef + i)).length = N := by
    rw [List.length_map, List.length_range]
  refine ⟨he, hrels, ?_, rfl, hlookT, ?_, ?_⟩
  · show (s0.insertLog ++ [f.cls]).count f.cls = 1
    rw [List.count_append, hcnt]
    simp
  · rw [getObj_eq_of_lookup hlookO]
  · intro ts hnd hsubt hlen
    have hlen' : ts.length <
        (⟨f.statements, (List.range N).map (fun i => s0.nextRef + i),
          s0.nextObj⟩ : Requisition).references.length := by
      show ts.length < ((List.range N).map (fun i => s0.nextRef + i)).length
      rw [htok_len]
      omega
    have hgo := releaseTokens_go s0.nextObj f.cls ts
      { s0 with
          table := s0.table ++ [(f.cls, s0.nextObj)],
          objects := s0.objects ++
            [(s0.nextObj,
              ⟨f.statements, (List.range N).map (fun i => s0.nextRef + i), s0.nextObj⟩)],
          nextObj := s0.nextObj + 1,
          nextRef := s0.nextRef + N,
          insertLog := s0.insertLog ++ [f.cls] }
      ⟨f.statements, (List.range N).map (fun i => s0.nextRef + i), s0.nextObj⟩
      hlookO hnd hsubt hlen' htok_nodup
    rw [hgo]
    dsimp only
    refine ⟨rfl, hlookT, ?_⟩
    intro tl htl hni
    have hsingle : List.foldl (fun refs t => refs.erase t)
        ((List.range N).map (fun i => s0.nextRef + i)) ts = [tl] := by
      rw [foldl_erase_eq_filter ts _ htok_nodup]
      exact filter_remaining htok_nodup hnd hsubt (by omega) htl hni
    rw [hsingle]
    have hlookRel : alookup
        (aupdate
          (s0.objects ++
            [(s0.nextObj,
              ⟨f.statements, (List.range N).map (fun i => s0.nextRef + i), s0.nextObj⟩)])
          s0.nextObj ⟨f.statements, [tl], s0.nextObj⟩)
        s0.nextObj = some ⟨f.statements, [tl], s0.nextObj⟩ :=
      alookup_aupdate_self (by rw [hlookO]; rfl)
    have hlast := releaseFragment_last (r := ⟨s0.nextObj, tl, f.cls⟩)
      (s :=
        { active := s0.active,
          table := s0.table ++ [(f.cls, s0.nextObj)],
          objects := aupdate
            (s0.objects ++
              [(s0.nextObj,
                ⟨f.statements, (List.range N).map (fun i => s0.nextRef + i), s0.nextObj⟩)])
            s0.nextObj ⟨f.statements, [tl], s0.nextObj⟩,
          nextObj := s0.nextObj + 1,
          nextRef := s0.nextRef + N,
          insertLog := s0.insertLog ++ [f.cls],
          removeLog := s0.removeLog })
      hlookRel (by simp) (by simp)
    rw [hlast]
    dsimp only
    refine ⟨rfl, ?_⟩
    rw [aerase_append_absent habs]
    exact habs

theorem c2_refcount_witness :
    (releaseFragment ⟨0, 1, "a"⟩ (releaseTokens [0] 0 "a"
        ⟨true, [("a", 0)], [(0, ⟨"x", [0, 1], 0⟩)], 1, 2, ["a"], []⟩)).removeLog = [0]
    ∧ alookup (releaseFragment ⟨0, 1, "a"⟩ (releaseTokens [0] 0 "a"
        ⟨true, [("a", 0)], [(0, ⟨"x", [0, 1], 0⟩)], 1, 2, ["a"], []⟩)).table "a" = none := by
  have h := c2_refcount initCtx
    ⟨true, [("a", 0)], [(0, ⟨"x", [0, 1], 0⟩)], 1, 2, ["a"], []⟩
    ⟨"a", "x"⟩ 2 none [⟨0, 0, "a"⟩, ⟨0, 1, "a"⟩]
    (by omega) rfl rfl rfl rfl rfl
  have h7 := h.2.2.2.2.2.2 [0] (by decide) (by decide) rfl
  have h8 := h7.2.2 1 (by decide) (by decide)
  exact ⟨h8.1, h8.2⟩

/-- Common core of the determinism claims: a second `classify` call for the
same template, after any number of intervening calls, returns the first
call's class whenever the parameter segments it appends coincide. -/
theorem classify_second_call {sA sB sA' sB' : ClassifyState} {t : Template}
    {p1 p2 : Params} {c1 c2 : String}
    (h1 : classify sA t p1 = (c1, sA'))
    (hr : ClsReach sA' sB)
    (h2 : classify sB t p2 = (c2, sB'))
    (hfold : ∀ b : String, paramFold p2 b = paramFold p1 b) :
    c1 = c2 := by
  obtain ⟨hids1, hint1, hfalse1, htrue1⟩ := classify_spec h1
  obtain ⟨hids2, hint2, hfalse2, htrue2⟩ := classify_spec h2
  have hidsB : alookup sB.ids t.tid = some (classBase sA t).1 := reach_ids_persist hr hids1
  have hbase2 : classBase sB t = ((classBase sA t).1, sB) := classBase_of_lookup hidsB
  have hintB : sB.intern = sA.intern := by rw [reach_intern hr, hint1]
  cases hA : sA.intern
  · have hc1 := hfalse1 hA
    have hc2 := hfalse2 (by rw [hintB, hA])
    rw [hc1, hc2, hbase2, hfold]
  · have ha1 := htrue1 hA
    have hB1 : alookup sB.interned (paramFold p1 (classBase sA t).1) = some c1 :=
      reach_interned_persist hr ha1
    have h2' : internize (classBase sB t).2 (paramFold p2 (classBase sB t).1)
        = (c2, sB') := by
      rw [← classify_eq]
      exact h2
    rw [hbase2] at h2'
    have h2'' : internize sB (paramFold p2 (classBase sA t).1) = (c2, sB') := h2'
    have hval : internize sB (paramFold p2 (classBase sA t).1) = (c1, sB) :=
      internize_of_lookup (by rw [hintB]; exact hA) (by rw [hfold]; exact hB1)
    rw [h2''] at hval
    exact (congrArg (fun x => x.1) hval).symm

/-- C6: `classify` is deterministic within one context: two calls with the
same template identity and parameter records holding the same key/value
pairs (in any insertion order; keys unique, as in a JS object) return the
same class string, however many other `classify` calls happen in between,
in both interning and non-interning modes. -/
theorem c6_classify_deterministic
    (sA sB sA' sB' : ClassifyState) (t : Template) (p1 p2 : Params) (c1 c2 : String)
    (h1 : classify sA t p1 = (c1, sA'))
    (hr : ClsReach sA' sB)
    (h2 : classify sB t p2 = (c2, sB'))
    (hperm : List.Perm p1 p2)
    (hnd : (p1.map Prod.fst).Nodup) :
    c1 = c2 :=
  classify_second_call h1 hr h2 (fun b => (paramFold_eq_of_perm hperm hnd b).symm)

theorem c6_classify_deterministic_witness :
    (classify (clsInit true) ⟨0, "t"⟩ [("a", some "1"), ("b", some "2")]).1
      = (classify ((classify (clsInit true) ⟨0, "t"⟩ [("a", some "1"), ("b", some "2")]).2)
          ⟨0, "t"⟩ [("b", some "2"), ("a", some "1")]).1 := by
  exact c6_classify_deterministic (clsInit true)
    ((classify (clsInit true) ⟨0, "t"⟩ [("a", some "1"), ("b", some "2")]).2) _ _
    ⟨0, "t"⟩ [("a", some "1"), ("b", some "2")] [("b", some "2"), ("a", some "1")] _ _
    rfl Relation.ReflTransGen.refl rfl (by decide) (by decide)

/-- C9: classification ignores parameter keys bound to `undefined`: for one
styler, two parameter records that agree on all keys whose values are
defined (for example `{a: 1}` and `{a: 1, b: undefined}`) classify to the
same class on consecutive calls; and two required fragments of one class
share a single requisition — one inserter call, one table entry and two
references. -/
theorem c9_undefined_params_ignored :
    (∀ (sA sA' sA'' : ClassifyState) (t : Template) (p1 p2 : Params) (c1 c2 : String),
        classify sA t p1 = (c1, sA') →
        classify sA' t p2 = (c2, sA'') →
        List.Perm (p1.filter (fun kv => kv.2.isSome)) (p2.filter (fun kv => kv.2.isSome)) →
        (p1.map Prod.fst).Nodup → (p2.map Prod.fst).Nodup →
        c1 = c2)
    ∧ (∀ (s s2 : CtxState) (f : Fragment) (e : Option JsErr) (rels : List Releaser),
        s.active = true →
        alookup s.table f.cls = none →
        alookup s.objects s.nextObj = none →
        requireList [f, f] s = (e, rels, s2) →
        e = none
        ∧ alookup s2.table f.cls = some s.nextObj
        ∧ (getObj s2 s.nextObj).references = [s.nextRef, s.nextRef + 1]
        ∧ s2.insertLog = s.insertLog ++ [f.cls]) := by
  constructor
  · intro sA sA' sA'' t p1 p2 c1 c2 h1 h2 hdef hnd1 hnd2
    exact classify_second_call h1 Relation.ReflTransGen.refl h2
      (fun b => (paramFold_eq_of_defined_perm hdef hnd1 hnd2 b).symm)
  · intro s s2 f e rels hact habs habso hrun
    rw [show ([f, f] : List Fragment) = List.replicate 2 f from rfl] at hrun
    have hfresh := requireList_replicate_fresh f 2 (by omega) s hact habs habso
    rw [hrun] at hfresh
    have he : e = none := congrArg (fun x => x.1) hfresh
    have hs2 : s2 =
        { s with
            table := s.table ++ [(f.cls, s.nextObj)],
            objects := s.objects ++
              [(s.nextObj,
                ⟨f.statements, (List.range 2).map (fun i => s.nextRef + i), s.nextObj⟩)],
            nextObj := s.nextObj + 1,
            nextRef := s.nextRef + 2,
            insertLog := s.insertLog ++ [f.cls] } :=
      congrArg (fun x => x.2.2) hfresh
    subst hs2
    have hlookO : alookup
        (s.objects ++
          [(s.nextObj,
            ⟨f.statements, (List.range 2).map (fun i => s.nextRef + i), s.nextObj⟩)])
        s.nextObj
        = some ⟨f.statements, (List.range 2).map (fun i => s.nextRef + i), s.nextObj⟩ := by
      rw [alookup_append_right _ habso]
      simp [alookup]
    refine ⟨he, ?_, ?_, rfl⟩
    · show alookup (s.table ++ [(f.cls, s.nextObj)]) f.cls = some s.nextObj
      rw [alookup_append_right _ habs]
      simp [alookup]
    · show (getObj _ s.nextObj).references = _
      rw [getObj_eq_of_lookup hlookO]
      show (List.range 2).map (fun i => s.nextRef + i) = [s.nextRef, s.nextRef + 1]
      simp [List.range_succ]

theorem c9_undefined_params_ignored_witness :
    ((classify (clsInit false) ⟨0, "t"⟩ [("a", some "1")]).1
      = (classify ((classify (clsInit false) ⟨0, "t"⟩ [("a", some "1")]).2)
          ⟨0, "t"⟩ [("a", some "1"), ("b", none)]).1)
    ∧ ((getObj (requireList [⟨"c", "s"⟩, ⟨"c", "s"⟩] initCtx).2.2 0).references = [0, 1]
      ∧ (requireList [⟨"c", "s"⟩, ⟨"c", "s"⟩] initCtx).2.2.insertLog = ["c"]) := by
  have h := c9_undefined_params_ignored
  constructor
  · exact h.1 (clsInit false) _ _ ⟨0, "t"⟩ [("a", some "1")]
      [("a", some "1"), ("b", none)] _ _ rfl rfl (by decide) (by decide) (by decide)
  · have h2 := h.2 initCtx (requireList [⟨"c", "s"⟩, ⟨"c", "s"⟩] initCtx).2.2 ⟨"c", "s"⟩
      (requireList [⟨"c", "s"⟩, ⟨"c", "s"⟩] initCtx).1
      (requireList [⟨"c", "s"⟩, ⟨"c", "s"⟩] initCtx).2.1
      rfl rfl rfl rfl
    exact ⟨h2.2.2.1, h2.2.2.2⟩

/-- C4: within one context, two stylers (template functions) with distinct
identities never classify to the same class, for all names and parameter
records — identical names and parameters included — in both interning and
non-interning modes, and the distinctness survives the `encode` step applied
by `rule`/`css`. -/
theorem c4_styler_identity_unique
    (sA sB sA' sB' : ClassifyState) (t1 t2 : Template) (p1 p2 : Params) (c1 c2 : String)
    (hInv : ClsInv sA)
    (h1 : classify sA t1 p1 = (c1, sA'))
    (hr : ClsReach sA' sB)
    (h2 : classify sB t2 p2 = (c2, sB'))
    (hne : t1.tid ≠ t2.tid) :
    encode c1 ≠ encode c2 := by
  intro hc
  have hcc : c1 = c2 := encode_inj hc
  have hInvA' : ClsInv sA' := by
    have h := clsInv_classify t1 p1 hInv
    rw [h1] at h
    exact h
  have hInvB : ClsInv sB := clsInv_reach hr hInvA'
  have hInvB' : ClsInv sB' := by
    have h := clsInv_classify t2 p2 hInvB
    rw [h2] at h
    exact h
  obtain ⟨hids1, hint1, hfalse1, htrue1⟩ := classify_spec h1
  obtain ⟨hids2, hint2, hfalse2, htrue2⟩ := classify_spec h2
  have hidsB : alookup sB.ids t1.tid = some (classBase sA t1).1 := reach_ids_persist hr hids1
  have hmem1 : (t1.tid, (classBase sA t1).1) ∈ sB.ids := alookup_mem hidsB
  obtain ⟨k1, nm1, hk1lt, hform1⟩ := hInvB.idsForm _ hmem1
  have hform1' : (classBase sA t1).1 = mkBase k1 nm1 := hform1
  have hk2 : ∃ k2 nm2, (classBase sB t2).1 = mkBase k2 nm2 ∧ k1 ≠ k2 := by
    unfold classBase
    cases hl : alookup sB.ids t2.tid with
    | none =>
        simp only
        exact ⟨sB.counter, t2.name, rfl, by omega⟩
    | some b =>
        simp only
        have hmem2 : (t2.tid, b) ∈ sB.ids := alookup_mem hl
        obtain ⟨k2, nm2, hk2lt, hform2⟩ := hInvB.idsForm _ hmem2
        exact ⟨k2, nm2, hform2,
          hInvB.idsInj _ hmem1 _ hmem2 k1 nm1 k2 nm2 hform1 hform2 hne⟩
  obtain ⟨k2, nm2, hform2, hkk⟩ := hk2
  have hfull : paramFold p1 (classBase sA t1).1 ≠ paramFold p2 (classBase sB t2).1 := by
    obtain ⟨x1, e1⟩ := paramFold_extend p1 (classBase sA t1).1
    obtain ⟨x2, e2⟩ := paramFold_extend p2 (classBase sB t2).1
    rw [e1, e2, hform1', hform2]
    intro hcfull
    exact hkk (mkBase_append_k_inj hcfull)
  cases hA : sA.intern
  · have hc1 := hfalse1 hA
    have hc2 := hfalse2 (by rw [reach_intern hr, hint1, hA])
    rw [hc1, hc2] at hcc
    exact hfull hcc
  · have ha1 := htrue1 hA
    have ha2 := htrue2 (by rw [reach_intern hr, hint1, hA])
    have hB'1 : alookup sB'.interned (paramFold p1 (classBase sA t1).1) = some c1 := by
      have hB1 : alookup sB.interned (paramFold p1 (classBase sA t1).1) = some c1 :=
        reach_interned_persist hr ha1
      have h := classify_interned_persist (t := t2) (p := p2) hB1
      rw [h2] at h
      exact h
    exact hInvB'.intInj _ (alookup_mem hB'1) _ (alookup_mem ha2) hfull hcc

theorem c4_styler_identity_unique_witness :
    encode (classify (clsInit false) ⟨0, "a"⟩ []).1
      ≠ encode (classify ((classify (clsInit false) ⟨0, "a"⟩ []).2) ⟨1, "a"⟩ []).1 :=
  c4_styler_identity_unique (clsInit false)
    ((classify (clsInit false) ⟨0, "a"⟩ []).2) _ _ ⟨0, "a"⟩ ⟨1, "a"⟩ [] [] _ _
    (clsInv_init false) rfl Relation.ReflTransGen.refl rfl (by decide)

theorem c7_amended_witness :
    (∃ rel s1, requireFragment ⟨"@", ""⟩ initCtx = .ok (rel, s1))
    ∧ require_fragment21 ⟨"@", "x"⟩ initCtx21 = .error "Bad class."
    ∧ require_fragment21 ⟨"a", ""⟩ initCtx21 = .ok ⟨[("a", ⟨1, ""⟩)], ["a"]⟩ := by
  have h := c7_amended
  refine ⟨h.1 ⟨"@", ""⟩ initCtx rfl, h.2.1 ⟨"@", "x"⟩ initCtx21 (by decide), ?_⟩
  have h3 := h.2.2 initCtx21 "a" (by decide) rfl
  rw [h3]
  rfl

end Fstyle
